import Mathlib

/-!
# Verification of the TimeTree Newick parser and tree pipeline

A shallow embedding of `TimeTree.py` (module `TimeTree`): the tokenizer, the
recursive-descent Newick parser, the time/height calculator, Newick
re-serialization, Nexus extraction, and clade-size sorting.  Python floats are
modelled as exact rationals (`ℚ`); Python exceptions as an error type
carried in `Except`.
-/

namespace TimeTree

/-- The double-quote character (written via its code point to keep source
files free of quoting subtleties). -/
def dqChar : Char := Char.ofNat 34

/-- The single-quote character. -/
def sqChar : Char := Char.ofNat 39

/-- Character class of the bare-STRING tokenizer rule, Python regex
`[a-zA-Z0-9_.-]` (ASCII letters and digits, underscore, dot, hyphen). -/
def isBareChar (c : Char) : Bool :=
  c.isAlpha || c.isDigit || c == '_' || c == '.' || c == '-'

/-- Token kinds, from the `tokens` table in `Tree.loadFromString`
(TimeTree.py lines 211-223). -/
inductive TokKind where
  | LPAREN | RPAREN | COLON | STRING | OPENA | EQUALS | CLOSEA | COMMA | SEMI
deriving DecidableEq

/-- A token paired with its recorded value (`None` for non-STRING tokens,
mirroring the parallel `tokenList` / `valueList` built in lockstep by the
tokenizer loop). -/
abbrev Tok := TokKind × Option (List Char)

/-- Python exceptions the module can raise, by class.
`parseError` is `Tree.ParseError`; `nameError`, `valueError` and
`indexError` are the built-in Python exceptions.  The constructors
`lexError` and `sourceFormatError` model the error classes named by the
specification; no code in TimeTree.py defines or raises them — they exist
here only so that statements about them can be expressed.  `outOfFuel` is
an artifact of the embedding's structural-recursion fuel and is never
produced when the fuel bounds chosen below are respected.
`nonfiniteFloat` is likewise an artifact: on `inf`/`nan` branch-length
literals Python 2 `float()` SUCCEEDS and the program continues with a
nonfinite double, a value the exact-rational embedding cannot carry, so
the embedding marks such inputs as outside its domain; no theorem below
counts this constructor as a Python exception. -/
inductive PyErr where
  | parseError (msg : List Char)
  | nameError (msg : List Char)
  | valueError (msg : List Char)
  | indexError
  | lexError (msg : List Char)
  | sourceFormatError (msg : List Char)
  | outOfFuel
  | nonfiniteFloat (v : List Char)
deriving DecidableEq

/-- `re.match` of a single literal character: the rules `LPAREN` `RPAREN`
`COLON` `EQUALS` `CLOSEA` `COMMA` `SEMI`.  Returns (matched text, rest). -/
def matchChar (c : Char) : List Char → Option (List Char × List Char)
  | [] => none
  | x :: rest => if x = c then some ([x], rest) else none

/-- `re.match` of the two-character literal `[&` (the `OPENA` rule). -/
def matchOpenA : List Char → Option (List Char × List Char)
  | x :: y :: rest => if x = '[' then (if y = '&' then some ([x, y], rest) else none) else none
  | _ => none

/-- `re.match` of a quoted-string rule (`"[^"]*"` or its single-quote twin):
an opening quote, a maximal run of non-quote characters, a closing quote. -/
def matchQuoted (q : Char) : List Char → Option (List Char × List Char)
  | [] => none
  | x :: rest =>
    if x = q then
      match rest.dropWhile (fun c => c != q) with
      | [] => none
      | y :: r => some (x :: (rest.takeWhile (fun c => c != q) ++ [y]), r)
    else none

/-- `re.match` of the bare-string rule `[a-zA-Z0-9_.-]+`: a maximal nonempty
run of bare characters. -/
def matchBare (s : List Char) : Option (List Char × List Char) :=
  match s.takeWhile isBareChar with
  | [] => none
  | c :: cs => some (c :: cs, s.dropWhile isBareChar)

/-- The `tokens` table of lines 211-223, in its priority order: each rule
is a kind paired with its `re.match` function. -/
def tokenRules : List (TokKind × (List Char → Option (List Char × List Char))) :=
  [(.LPAREN, matchChar '('),
   (.RPAREN, matchChar ')'),
   (.COLON, matchChar ':'),
   (.STRING, matchQuoted dqChar),
   (.STRING, matchQuoted sqChar),
   (.STRING, matchBare),
   (.OPENA, matchOpenA),
   (.EQUALS, matchChar '='),
   (.CLOSEA, matchChar ']'),
   (.COMMA, matchChar ','),
   (.SEMI, matchChar ';')]

/-- The `for k in range(len(tokens))` loop of lines 233-253: the first rule
that matches wins. -/
def lexFirst (rs : List (TokKind × (List Char → Option (List Char × List Char))))
    (s : List Char) : Option (TokKind × List Char × List Char) :=
  match rs with
  | [] => none
  | (k, m) :: rest =>
    match m s with
    | some p => some (k, p.1, p.2)
    | none => lexFirst rest s

/-- One step of the tokenizer loop: try the rules of the `tokens` table in
priority order, returning the kind, the matched text and the unconsumed
rest for the first rule that matches. -/
def lexOne (s : List Char) : Option (TokKind × List Char × List Char) :=
  lexFirst tokenRules s

/-- The STRING value computation of lines 240-248: the quote characters are
stripped only when the matched text has length strictly greater than 2 and
begins and ends with the same quote character. -/
def stringValue (v : List Char) : List Char :=
  if 2 < v.length then
    if v.head? = some dqChar ∧ v.getLast? = some dqChar then (v.drop 1).dropLast
    else if v.head? = some sqChar ∧ v.getLast? = some sqChar then (v.drop 1).dropLast
    else v
  else v

/-- The value recorded in `valueList` for a token: the (possibly stripped)
text for STRING tokens, `None` for every other kind (lines 240-250). -/
def tokenValue (k : TokKind) (raw : List Char) : Option (List Char) :=
  if k = .STRING then some (stringValue raw) else none

/-- The message of the `Tree.ParseError` raised at line 256:
`'Unrecognized character at position ' + str(idx) + ': ' + quote + char + quote`. -/
def unrecognizedMsg (pos : ℕ) (c : Char) : List Char :=
  "Unrecognized character at position ".data ++ (Nat.repr pos).data
    ++ ": ".data ++ [sqChar, c, sqChar]

/-- The tokenizer loop of lines 229-256.  Fuel is structural-recursion
bookkeeping only: every match consumes at least one character, so
`length + 1` units never run out. -/
def tokenizeAux : ℕ → List Char → ℕ → Except PyErr (List Tok)
  | _, [], _ => .ok []
  | 0, _ :: _, _ => .error .outOfFuel
  | fuel + 1, c :: cs, pos =>
    match lexOne (c :: cs) with
    | none => .error (.parseError (unrecognizedMsg pos c))
    | some (k, raw, rest) =>
      match tokenizeAux fuel rest (pos + raw.length) with
      | .ok ts => .ok ((k, tokenValue k raw) :: ts)
      | .error e => .error e

/-- Lexical analysis of an input string (lines 229-256). -/
def tokenize (s : List Char) : Except PyErr (List Tok) :=
  tokenizeAux (s.length + 1) s 0

/-- Numeric value of an ASCII digit character. -/
def digitVal (c : Char) : ℕ := c.toNat - 48

/-- The natural number denoted by a list of decimal digit characters. -/
def digitsToNat (ds : List Char) : ℕ := ds.foldl (fun a c => 10 * a + digitVal c) 0

/-- Python `str.strip()` whitespace set. -/
def isPySpace (c : Char) : Bool :=
  c == ' ' || c == '\t' || c == '\n' || c == '\r' || c == Char.ofNat 11 || c == Char.ofNat 12

/-- Python `str.strip()`. -/
def pyStrip (s : List Char) : List Char :=
  ((s.dropWhile isPySpace).reverse.dropWhile isPySpace).reverse

/-- Python `str.lower()` (ASCII). -/
def pyLower (s : List Char) : List Char := s.map Char.toLower

/-- Python `float()` on an unsigned numeric literal:
`digits [. digits] [e [-] digits]` with at least one mantissa digit,
evaluated exactly as a rational.  (The `inf`/`nan` literals the builtin
also accepts are recognized separately by `isInfNanLit` below.) -/
def pyFloatCore (s : List Char) : Option ℚ :=
  let ip := s.takeWhile Char.isDigit
  let s1 := s.dropWhile Char.isDigit
  let fp := match s1 with
    | '.' :: r => r.takeWhile Char.isDigit
    | _ => []
  let s2 := match s1 with
    | '.' :: r => r.dropWhile Char.isDigit
    | _ => s1
  if ip.isEmpty && fp.isEmpty then none
  else
    let mant := mkRat (Int.ofNat (digitsToNat (ip ++ fp))) (10 ^ fp.length)
    match s2 with
    | [] => some mant
    | e :: r =>
      if e = 'e' ∨ e = 'E' then
        let negExp := match r with
          | '-' :: _ => true
          | _ => false
        let r2 := match r with
          | '-' :: rr => rr
          | '+' :: rr => rr
          | rr => rr
        let ed := r2.takeWhile Char.isDigit
        if ed.isEmpty || !(r2.dropWhile Char.isDigit).isEmpty then none
        else if negExp then some (mant * mkRat 1 (10 ^ digitsToNat ed))
        else some (mant * mkRat (Int.ofNat (10 ^ digitsToNat ed)) 1)
      else none

/-- An optional sign followed by an unsigned numeric literal. -/
def pyFloatSigned (s : List Char) : Option ℚ :=
  match s with
  | '-' :: rest => (pyFloatCore rest).map (fun q => -q)
  | '+' :: rest => pyFloatCore rest
  | rest => pyFloatCore rest

/-- Python 2 `float()` on a string drawn from the tokenizer's STRING
values: the builtin strips surrounding whitespace, then parses an
optionally signed numeric literal.  `none` means `float()` raises
`ValueError` — except on the `inf`/`nan` literals, which the builtin
accepts and which `ruleB` recognizes separately with `isInfNanLit`. -/
def pyFloat (s : List Char) : Option ℚ := pyFloatSigned (pyStrip s)

/-- Drop one leading `+`/`-` sign. -/
def stripSign : List Char → List Char
  | c :: r => if c = '+' ∨ c = '-' then r else c :: r
  | [] => []

/-- The `inf`/`nan` literals Python 2 `float()` accepts (whitespace
stripped, optionally signed, any case: `inf`, `infinity`, `nan`): on these
the builtin succeeds with a nonfinite double, a value the exact-rational
embedding cannot carry. -/
def isInfNanLit (s : List Char) : Bool :=
  let w := pyLower (stripSign (pyStrip s))
  decide (w = "inf".data) || decide (w = "infinity".data) || decide (w = "nan".data)

/-- Message of the `ValueError` Python 2 raises for `float()` on a bad
literal. -/
def floatErrMsg (v : List Char) : List Char :=
  "could not convert string to float: ".data ++ v

/-- Message of the `NameError` Python 2 raises at line 198: the bare name
`ParseError` is looked up in the module globals (the class is the attribute
`Tree.ParseError`, not a global), so the lookup fails before the intended
`ParseError` is even constructed. -/
def nameErrorMsg : List Char :=
  "global name ".data ++ [sqChar] ++ "ParseError".data ++ [sqChar] ++ " is not defined".data

/-- Parser output: a node as it stands at the end of `ruleN`, before the
time/height pass (its `time` and `height` are still Python `None`). -/
inductive RawNode where
  | mk (label : Option (List Char)) (annots : List (List Char × List Char))
       (branchLength : ℚ) (children : List RawNode)

def RawNode.label : RawNode → Option (List Char)
  | .mk l _ _ _ => l

def RawNode.annots : RawNode → List (List Char × List Char)
  | .mk _ a _ _ => a

def RawNode.branchLength : RawNode → ℚ
  | .mk _ _ b _ => b

def RawNode.children : RawNode → List RawNode
  | .mk _ _ _ cs => cs

/-- A fully built node, with `time` and `height` set by the pipeline of
lines 321-332. -/
inductive Node where
  | mk (label : Option (List Char)) (annots : List (List Char × List Char))
       (branchLength : ℚ) (time : ℚ) (height : ℚ) (children : List Node)

def Node.label : Node → Option (List Char)
  | .mk l _ _ _ _ _ => l

def Node.annots : Node → List (List Char × List Char)
  | .mk _ a _ _ _ _ => a

def Node.branchLength : Node → ℚ
  | .mk _ _ b _ _ _ => b

def Node.time : Node → ℚ
  | .mk _ _ _ t _ _ => t

def Node.height : Node → ℚ
  | .mk _ _ _ _ h _ => h

def Node.children : Node → List Node
  | .mk _ _ _ _ _ cs => cs

/-- A parsed tree: the root node together with the `origin` attribute that
`loadFromString` stores on the root (line 332). -/
structure Tree where
  root : Node
  origin : ℚ

/-- The parser state `Tree.ParseContext`: the token/value sequence and the
current index. -/
structure ParseContext where
  toks : List Tok
  idx : ℕ

/-- `ParseContext.acceptToken` (lines 190-198).  `tokenList[self.idx]` is
read without a bounds check, so an exhausted stream raises `IndexError`;
a mandatory mismatch executes `raise ParseError(...)` whose unqualified
name lookup raises `NameError` in Python 2 (the class is
`Tree.ParseError`). -/
def acceptToken (ctx : ParseContext) (token : TokKind) (manditory : Bool) :
    Except PyErr (Bool × ParseContext) :=
  match ctx.toks.get? ctx.idx with
  | none => .error .indexError
  | some t =>
    if t.1 = token then .ok (true, ⟨ctx.toks, ctx.idx + 1⟩)
    else if manditory then .error (.nameError nameErrorMsg)
    else .ok (false, ctx)

/-- `ParseContext.getLastValue` (lines 200-201): `valueList[self.idx - 1]`.
Every call site runs directly after a successful STRING accept, so the
value is present there. -/
def getLastValue (ctx : ParseContext) : Option (List Char) :=
  match ctx.toks.get? (ctx.idx - 1) with
  | some t => t.2
  | none => none

/-- Python dict assignment `m[k] = v`: replace in place if the key exists,
append otherwise. -/
def dictSet (m : List (List Char × List Char)) (k v : List Char) :
    List (List Char × List Char) :=
  match m with
  | [] => [(k, v)]
  | (k0, v0) :: rest => if k0 = k then (k0, v) :: rest else (k0, v0) :: dictSet rest k v

/-- `ruleC` (lines 296-303): one mandatory `STRING '=' STRING` pair. -/
def ruleC (ctx : ParseContext) : Except PyErr ((List Char × List Char) × ParseContext) := do
  let (_, ctx) ← acceptToken ctx .STRING true
  let key := (getLastValue ctx).getD []
  let (_, ctx) ← acceptToken ctx .EQUALS true
  let (_, ctx) ← acceptToken ctx .STRING true
  let val := (getLastValue ctx).getD []
  .ok ((key, val), ctx)

/-- `ruleD` (lines 305-308): zero or more `',' C` continuations, each pair
stored into the annotation dict as it is parsed. -/
def ruleD : ℕ → List (List Char × List Char) → ParseContext →
    Except PyErr (List (List Char × List Char) × ParseContext)
  | 0, _, _ => .error .outOfFuel
  | fuel + 1, ann, ctx => do
    let (b, ctx) ← acceptToken ctx .COMMA false
    if b then do
      let ((k, v), ctx) ← ruleC ctx
      ruleD fuel (dictSet ann k v) ctx
    else .ok (ann, ctx)

/-- `ruleA` (lines 290-294): an optional `[& C D ]` annotation block. -/
def ruleA (fuel : ℕ) (ctx : ParseContext) :
    Except PyErr (List (List Char × List Char) × ParseContext) := do
  let (b, ctx) ← acceptToken ctx .OPENA false
  if b then do
    let ((k, v), ctx) ← ruleC ctx
    let (ann, ctx) ← ruleD fuel (dictSet [] k v) ctx
    let (_, ctx) ← acceptToken ctx .CLOSEA true
    .ok (ann, ctx)
  else .ok ([], ctx)

/-- `ruleL` (lines 286-288): an optional STRING label. -/
def ruleL (ctx : ParseContext) : Except PyErr (Option (List Char) × ParseContext) := do
  let (b, ctx) ← acceptToken ctx .STRING false
  if b then .ok (getLastValue ctx, ctx) else .ok (none, ctx)

/-- `ruleB` (lines 310-315): an optional `':' STRING` branch length parsed
with `float()` (a bad literal raises `ValueError`); absent means 1.0.
On `inf`/`nan` literals `float()` succeeds with a nonfinite value outside
the rational model; the embedding diverts those inputs to the
`nonfiniteFloat` artifact rather than modelling the continuation. -/
def ruleB (ctx : ParseContext) : Except PyErr (ℚ × ParseContext) := do
  let (b, ctx) ← acceptToken ctx .COLON false
  if b then do
    let (_, ctx) ← acceptToken ctx .STRING true
    let v := (getLastValue ctx).getD []
    if isInfNanLit v then .error (.nonfiniteFloat v)
    else match pyFloat v with
      | some q => .ok (q, ctx)
      | none => .error (.valueError (floatErrMsg v))
  else .ok ((1 : ℚ), ctx)

mutual

/-- `ruleN` (lines 260-271): `N := S L A B`, building one node. -/
def ruleN : ℕ → ParseContext → Except PyErr (RawNode × ParseContext)
  | 0, _ => .error .outOfFuel
  | fuel + 1, ctx => do
    let (children, ctx) ← ruleS fuel ctx
    let (label, ctx) ← ruleL ctx
    let (annots, ctx) ← ruleA fuel ctx
    let (bl, ctx) ← ruleB ctx
    .ok (.mk label annots bl children, ctx)

/-- `ruleS` (lines 273-279): `S := '(' N Q ')' | ε`, returning the children
attached to the node under construction. -/
def ruleS : ℕ → ParseContext → Except PyErr (List RawNode × ParseContext)
  | 0, _ => .error .outOfFuel
  | fuel + 1, ctx => do
    let (b, ctx) ← acceptToken ctx .LPAREN false
    if b then do
      let (first, ctx) ← ruleN fuel ctx
      let (rest, ctx) ← ruleQ fuel ctx
      let (_, ctx) ← acceptToken ctx .RPAREN true
      .ok (first :: rest, ctx)
    else .ok ([], ctx)

/-- `ruleQ` (lines 281-284): `Q := ',' N Q | ε`. -/
def ruleQ : ℕ → ParseContext → Except PyErr (List RawNode × ParseContext)
  | 0, _ => .error .outOfFuel
  | fuel + 1, ctx => do
    let (b, ctx) ← acceptToken ctx .COMMA false
    if b then do
      let (n, ctx) ← ruleN fuel ctx
      let (rest, ctx) ← ruleQ fuel ctx
      .ok (n :: rest, ctx)
    else .ok ([], ctx)

end

mutual

/-- `Node.computeTimes` (lines 99-105): `time := offset + branchLength`,
recursively for every child with the node's own time as offset.  The
`height` field is still unset at this stage (Python `None`); it is given
the placeholder 0 here and is overwritten by `setHeights` before any read. -/
def computeTimes (offset : ℚ) : RawNode → Node
  | .mk l a bl cs => .mk l a bl (offset + bl) 0 (computeTimesList (offset + bl) cs)

def computeTimesList (offset : ℚ) : List RawNode → List Node
  | [] => []
  | c :: cs => computeTimes offset c :: computeTimesList offset cs

end

mutual

/-- `Node.getAllChildren` (lines 43-50): the node followed by the
recursively flattened descendants, in child order (preorder). -/
def getAllChildren : Node → List Node
  | .mk l a b t h cs => .mk l a b t h cs :: getAllChildrenList cs

def getAllChildrenList : List Node → List Node
  | [] => []
  | c :: cs => getAllChildren c ++ getAllChildrenList cs

end

mutual

/-- The height loop of lines 329-330: `height := maxTime − time` for every
node. -/
def setHeights (m : ℚ) : Node → Node
  | .mk l a b t _ cs => .mk l a b t (m - t) (setHeightsList m cs)

def setHeightsList (m : ℚ) : List Node → List Node
  | [] => []
  | c :: cs => setHeights m c :: setHeightsList m cs

end

/-- The `maxTime` computation of lines 325-327: a fold of `max` over all
node times, started from `0.0`. -/
def treeMaxTime (root : Node) : ℚ :=
  (getAllChildren root).foldl (fun m n => max m n.time) 0

/-- The post-parse pipeline of lines 321-332: `root.computeTimes(0.0)`,
the `maxTime` fold, the height loop, and `origin := height + branchLength`
on the root. -/
def finalize (root : RawNode) : Tree :=
  let r := computeTimes 0 root
  let m := treeMaxTime r
  let root2 := setHeights m r
  ⟨root2, root2.height + root2.branchLength⟩

/-- `Tree.loadFromString` (lines 204-334): tokenize, run the recursive
descent parser (`N ';'`), then compute times, `maxTime`, heights and the
root's `origin`. -/
def loadFromString (string : List Char) : Except PyErr Tree := do
  let toks ← tokenize string
  let ctx : ParseContext := ⟨toks, 0⟩
  let (root, ctx) ← ruleN (2 * toks.length + 8) ctx
  let (_, _) ← acceptToken ctx .SEMI true
  .ok (finalize root)

/-- Decimal digits of a natural number, most significant first.  Fuel is
structural-recursion bookkeeping; `n + 1` units always suffice. -/
def natToDigitsAux : ℕ → ℕ → List Char
  | 0, _ => []
  | fuel + 1, n =>
    if n < 10 then [Char.ofNat (48 + n)]
    else natToDigitsAux fuel (n / 10) ++ [Char.ofNat (48 + n % 10)]

/-- Decimal representation of a natural number. -/
def natToDigits (n : ℕ) : List Char := natToDigitsAux (n + 1) n

/-- Smallest `k ≤ fuel` with `d ∣ 10 ^ k`, if any. -/
def pow10ExpAux : ℕ → ℕ → ℕ → Option ℕ
  | 0, _, _ => none
  | fuel + 1, d, k => if d ∣ 10 ^ k then some k else pow10ExpAux fuel d (k + 1)

/-- Smallest `k` with `d ∣ 10 ^ k`: defined exactly for denominators whose
prime factors are 2 and 5, i.e. for exact decimal fractions. -/
def pow10Exp (d : ℕ) : Option ℕ := pow10ExpAux (d + 1) d 0

/-- Left-pad a digit string with zeros to width `k`. -/
def padZeros (k : ℕ) (ds : List Char) : List Char :=
  List.replicate (k - ds.length) '0' ++ ds

/-- The positional branch of Python 2 `'{}'.format(f)`, modelled exactly on
rationals: the shortest decimal expansion with at least one fractional
digit (`1.0`, `-0.25`, `12.5`), matching Python's output on the values
that arise from parsing finite decimal literals whose magnitude Python
renders positionally.  (Binary-float rounding is outside the
exact-rational model.)  The `/`-fallback is unreachable for decimal
denominators. -/
def formatFloatPos (q : ℚ) : List Char :=
  let sign : List Char := if q < 0 then ['-'] else []
  let n := q.num.natAbs
  let d := q.den
  match pow10Exp d with
  | some k =>
    if k = 0 then sign ++ natToDigits n ++ ['.', '0']
    else
      let scaled := n * (10 ^ k / d)
      sign ++ natToDigits (scaled / 10 ^ k) ++ '.' :: padZeros k (natToDigits (scaled % 10 ^ k))
  | none => sign ++ natToDigits n ++ '/' :: natToDigits d

/-- Python 2 switches float formatting to exponent notation exactly when
the value is nonzero and its magnitude is `≥ 1e16` or `< 1e-4`. -/
def usesExponent (q : ℚ) : Bool :=
  decide (q ≠ 0) && (decide ((10 : ℚ) ^ 16 ≤ |q|) || decide (|q| < 1 / 10 ^ 4))

/-- Drop trailing `'0'` digits. -/
def stripTrailingZeros (ds : List Char) : List Char :=
  (ds.reverse.dropWhile (fun c => c = '0')).reverse

/-- The exponent digits of Python's exponent notation: at least two, zero
padded (`1e+05`, `1e+16`, `1e+100`). -/
def expDigits (e : ℕ) : List Char :=
  let ds := natToDigits e
  if ds.length < 2 then '0' :: ds else ds

/-- The exponent branch of Python 2 `'{}'.format(f)` on an exact decimal:
mantissa `d[.digits]` (the shortest expansion, no point when integral,
as in `1e+16` and `1.5e-05`), then `e`, a mandatory exponent sign and the
zero-padded exponent.  (Binary-float rounding is outside the
exact-rational model; the `/`-fallback is unreachable for decimal
denominators.) -/
def formatFloatExp (q : ℚ) : List Char :=
  let sign : List Char := if q < 0 then ['-'] else []
  let n := q.num.natAbs
  let d := q.den
  match pow10Exp d with
  | some k =>
    let scaled := n * (10 ^ k / d)
    let ds := natToDigits scaled
    let e : ℤ := (ds.length : ℤ) - 1 - (k : ℤ)
    let frac := stripTrailingZeros ds.tail
    let mant := ds.take 1 ++ (if frac.isEmpty then ([] : List Char) else '.' :: frac)
    sign ++ mant ++ 'e' :: (if e < 0 then '-' else '+') :: expDigits e.natAbs
  | none => sign ++ natToDigits n ++ '/' :: natToDigits d

/-- Python 2 `'{}'.format(f)` on a float: positional inside `[1e-4, 1e16)`
(and at zero), exponent notation outside. -/
def formatFloat (q : ℚ) : List Char :=
  if usesExponent q then formatFloatExp q else formatFloatPos q

/-- Comma-join of rendered fragments. -/
def joinComma : List (List Char) → List Char
  | [] => []
  | [x] => x
  | x :: y :: rest => x ++ ',' :: joinComma (y :: rest)

/-- One rendered annotation pair, `'{}="{}"'.format(k, v)` (line 86). -/
def annotItem (kv : List Char × List Char) : List Char :=
  kv.1 ++ '=' :: dqChar :: (kv.2 ++ [dqChar])

/-- The rendered annotation block of lines 78-87 (empty if there are no
annotations). -/
def annotBlock (anns : List (List Char × List Char)) : List Char :=
  if anns.isEmpty then [] else '[' :: '&' :: (joinComma (anns.map annotItem) ++ [']'])

/-- The rendered label (lines 75-76). -/
def labelPart : Option (List Char) → List Char
  | some s => s
  | none => []

mutual

/-- `Node.getNewick` (lines 63-97) below a given node, with the value this
node writes after its `:` supplied by the caller: `parent.height − height`
for a child (line 95), `origin − height` for the root (line 91). -/
def newickOf : Node → ℚ → List Char
  | .mk l a _ _ h cs, blVal =>
    (match cs with
     | [] => ([] : List Char)
     | _ :: _ => '(' :: (newickChildren h true cs ++ [')']))
    ++ labelPart l ++ annotBlock a ++ ':' :: formatFloat blVal

/-- The `enumerate` loop of lines 69-72: a comma before every child except
the first, each child rendered with `parent.height − child.height` as its
branch-length value. -/
def newickChildren : ℚ → Bool → List Node → List Char
  | _, _, [] => []
  | ph, first, c :: rest =>
    (if first then ([] : List Char) else [',']) ++ newickOf c (ph - c.height)
      ++ newickChildren ph false rest

end

/-- `root.getNewick()` for a parsed tree: the root's branch-length value is
`self.origin - self.height` (line 91; `origin` is always set on a parsed
root by line 332). -/
def getNewick (t : Tree) : List Char :=
  newickOf t.root (t.origin - t.root.height)

/-- Python `str.startswith(p)`. -/
def isPre : List Char → List Char → Bool
  | [], _ => true
  | _ :: _, [] => false
  | p :: ps, s :: ss => p == s && isPre ps ss

/-- Python `str.find(c)`: index of the first occurrence, `-1` if absent. -/
def pyFindAux : List Char → Char → ℕ → Int
  | [], _, _ => -1
  | x :: xs, c, i => if x = c then Int.ofNat i else pyFindAux xs c (i + 1)

/-- `line[(line.find("=") + 1):]` (line 132): everything after the first
`=`, or the whole line when there is none (`-1 + 1 = 0`). -/
def afterEq (line : List Char) : List Char :=
  line.drop (pyFindAux line '=' 0 + 1).toNat

/-- The scan of lines 130-133: the first line whose stripped, lowercased
text starts with `tree `, reduced to its Newick payload. -/
def findTreeLine : List (List Char) → Option (List Char)
  | [] => none
  | line :: rest =>
    if isPre "tree ".data (pyLower (pyStrip line)) then some (pyStrip (afterEq line))
    else findTreeLine rest

/-- The file branch of `Tree.__init__` (lines 125-137): a first line and the
remaining lines of an open stream.  A `#NEXUS` header makes the payload the
first `tree ` statement (or the empty string when none exists, which the
parse step then rejects); otherwise the stripped first line is the payload. -/
def treeFromNexusLines (firstLine : List Char) (rest : List (List Char)) :
    Except PyErr Tree :=
  let newickString :=
    if isPre "#nexus".data (pyLower firstLine) then
      match findTreeLine rest with
      | some s => s
      | none => []
    else pyStrip firstLine
  loadFromString newickString

mutual

/-- Clade size as computed by `sortSubTree` (lines 161-169): the node plus
all of its descendants. -/
def cladeSize : Node → ℕ
  | .mk _ _ _ _ _ cs => 1 + cladeSizeList cs

def cladeSizeList : List Node → ℕ
  | [] => 0
  | c :: cs => cladeSize c + cladeSizeList cs

end

/-- Python `list.sort(key=key, reverse=rev)`: a stable ascending sort by
key; CPython implements `reverse=True` by reversing the list, sorting, and
reversing again (which preserves the original relative order of equal
keys). -/
def pySortByKey (key : Node → ℕ) (rev : Bool) (l : List Node) : List Node :=
  if rev then (l.reverse.mergeSort (fun a b => key a ≤ key b)).reverse
  else l.mergeSort (fun a b => key a ≤ key b)

mutual

/-- `sortSubTree` of `Tree.sort` (lines 158-173): each node's children are
recursively sorted, then reordered by clade size, ascending when
`increasing` and descending otherwise.  (Clade size is unchanged by the
recursive sorting, so keying on the sorted child equals Python's keying on
the pre-computed `_cladeSize`.) -/
def sortNode (increasing : Bool) : Node → Node
  | .mk l a b t h cs =>
    .mk l a b t h (pySortByKey cladeSize (!increasing) (sortNodeList increasing cs))

def sortNodeList (increasing : Bool) : List Node → List Node
  | [] => []
  | c :: cs => sortNode increasing c :: sortNodeList increasing cs

end

/-- `Tree.sort` (lines 158-173) on a whole tree. -/
def treeSort (increasing : Bool) (t : Tree) : Tree :=
  ⟨sortNode increasing t.root, t.origin⟩

/-- Spec-side definition, for comparison with the code's `treeMaxTime`
(which starts its fold at `0.0`): "`maxTime` is the maximum `time` over all
nodes in the tree". -/
def maxNodeTime (root : Node) : ℚ :=
  ((getAllChildren root).map Node.time).foldl max root.time

/-- Whether a result is a raised `Tree.ParseError`. -/
def resultIsParseError {α : Type} : Except PyErr α → Bool
  | .error (.parseError _) => true
  | _ => false

/-- Whether a result is a raised `LexError` (the class named by the
specification; the source never defines one). -/
def resultIsLexError {α : Type} : Except PyErr α → Bool
  | .error (.lexError _) => true
  | _ => false

/-- Whether a result is a raised `SourceFormatError` (the class named by
the specification; the source never defines one). -/
def resultIsSourceFormatError {α : Type} : Except PyErr α → Bool
  | .error (.sourceFormatError _) => true
  | _ => false

/-- The tree Python builds for the input `A;`: a single labelled leaf with
the default branch length 1.0. -/
def treeA : Tree := ⟨.mk (some ['A']) [] 1 1 0 [], 1⟩

/-- The tree Python builds for the single-quoted input `'A B';`: a single
leaf whose label contains a space. -/
def treeAB : Tree := ⟨.mk (some "A B".data) [] 1 1 0 [], 1⟩

/-- The tree Python builds for the input `A:-5;`: a single leaf with a
negative branch length, hence a negative time. -/
def treeNeg : Tree := ⟨.mk (some ['A']) [] (-5) (-5) 5 [], 0⟩

/-- The positions the tokenizer loop actually visits: `LexReaches s pos r p`
holds when, started on `s` at reported position `pos`, the loop of lines
229-256 eventually has `r` as its unconsumed suffix at reported position
`p`. -/
inductive LexReaches : List Char → ℕ → List Char → ℕ → Prop where
  | refl (s : List Char) (pos : ℕ) : LexReaches s pos s pos
  | step {s : List Char} {pos : ℕ} {k : TokKind} {raw rest r : List Char} {p : ℕ} :
      lexOne s = some (k, raw, rest) → LexReaches rest (pos + raw.length) r p →
      LexReaches s pos r p

/-- The tree Python builds for `(A:2,B:3);`. -/
def tree2 : Tree :=
  ⟨.mk none [] 1 1 3 [.mk (some ['A']) [] 2 3 1 [], .mk (some ['B']) [] 3 4 0 []], 4⟩

/-- The tree Python builds for `(X:0.5,Y:1.5)R:2;`. -/
def tree3 : Tree :=
  ⟨.mk (some ['R']) [] 2 2 (mkRat 3 2)
    [.mk (some ['X']) [] (mkRat 1 2) (mkRat 5 2) 1 [],
     .mk (some ['Y']) [] (mkRat 3 2) (mkRat 7 2) 0 []], mkRat 7 2⟩

/-- Canonical-fuel tokenizer run from a given reported position. -/
def tokenizeFrom (s : List Char) (pos : ℕ) : Except PyErr (List Tok) :=
  tokenizeAux (s.length + 1) s pos

/-- Whether a rational is an exact finite decimal (denominator divides a
power of ten) — true of every value `float()` produces from a literal. -/
def isDecimalQ (q : ℚ) : Bool := (pow10Exp q.den).isSome

/-- A nonempty string of bare characters: re-emitted by the serializer, it
tokenizes back to a single STRING with the same value. -/
def bareStr (w : List Char) : Bool := !w.isEmpty && w.all isBareChar

mutual

/-- `getNewick`'s text below a raw node, with the root's written value
supplied (on a parsed tree the written differences of heights equal the raw
branch lengths, proved below). -/
def rawNewickBL : RawNode → ℚ → List Char
  | .mk l a _ cs, blv =>
    (match cs with
     | [] => ([] : List Char)
     | _ :: _ => '(' :: (rawNewickChildren true cs ++ [')']))
    ++ labelPart l ++ annotBlock a ++ ':' :: formatFloat blv

def rawNewickChildren : Bool → List RawNode → List Char
  | _, [] => []
  | first, c :: rest =>
    (if first then ([] : List Char) else [',']) ++ rawNewickBL c c.branchLength
      ++ rawNewickChildren false rest

end

/-- The serialization of a raw node, writing each node's own branch
length. -/
def rawNewick (r : RawNode) : List Char := rawNewickBL r r.branchLength

/-- The token sequence of one serialized annotation list. -/
def annotToksList : Bool → List (List Char × List Char) → List Tok
  | _, [] => []
  | first, kv :: rest =>
    (if first then ([] : List Tok) else [(.COMMA, none)])
      ++ [(.STRING, some kv.1), (.EQUALS, none), (.STRING, some kv.2)]
      ++ annotToksList false rest

/-- The token sequence of a serialized annotation block. -/
def annotToksBlock (anns : List (List Char × List Char)) : List Tok :=
  if anns.isEmpty then [] else (.OPENA, none) :: (annotToksList true anns ++ [(.CLOSEA, none)])

/-- The token a serialized label contributes (none when absent). -/
def labelToks : Option (List Char) → List Tok
  | some s => [(.STRING, some s)]
  | none => []

mutual

/-- The token sequence the tokenizer recovers from `rawNewickBL`. -/
def rawToksBL : RawNode → ℚ → List Tok
  | .mk l a _ cs, blv =>
    (match cs with
     | [] => ([] : List Tok)
     | _ :: _ => (.LPAREN, none) :: (rawToksChildren true cs ++ [(.RPAREN, none)]))
    ++ labelToks l
    ++ annotToksBlock a
    ++ [(.COLON, none), (.STRING, some (formatFloat blv))]

def rawToksChildren : Bool → List RawNode → List Tok
  | _, [] => []
  | first, c :: rest =>
    (if first then ([] : List Tok) else [(.COMMA, none)])
      ++ rawToksBL c c.branchLength ++ rawToksChildren false rest

end

/-- The token sequence of a serialized raw node. -/
def rawToks (r : RawNode) : List Tok := rawToksBL r r.branchLength

mutual

/-- Round-trippable raw trees: labels (when present), annotation keys and
values are nonempty bare strings, annotation keys are distinct, and branch
lengths are exact decimals that Python renders positionally (zero or
magnitude in `[1e-4, 1e16)` — outside that range `'{}'.format` emits
exponent notation such as `1e+16`, whose `+` the tokenizer rejects). -/
def rawSafe : RawNode → Bool
  | .mk l a bl cs =>
    (match l with
     | some s => bareStr s
     | none => true)
    && a.all (fun kv => bareStr kv.1 && bareStr kv.2)
    && decide ((a.map Prod.fst).Nodup)
    && isDecimalQ bl
    && !usesExponent bl
    && rawSafeList cs

def rawSafeList : List RawNode → Bool
  | [] => true
  | c :: cs => rawSafe c && rawSafeList cs

end

mutual

/-- The same round-trippability condition on a finished tree (the form the
round-trip theorem's hypothesis takes, since the claim quantifies over
parsed trees). -/
def nodeSafe : Node → Bool
  | .mk l a bl _ _ cs =>
    (match l with
     | some s => bareStr s
     | none => true)
    && a.all (fun kv => bareStr kv.1 && bareStr kv.2)
    && decide ((a.map Prod.fst).Nodup)
    && isDecimalQ bl
    && !usesExponent bl
    && nodeSafeList cs

def nodeSafeList : List Node → Bool
  | [] => true
  | c :: cs => nodeSafe c && nodeSafeList cs

end

mutual

/-- Fuel sufficient for the parser rules on a serialized node (each rule
call consumes one unit; see the fuel-bound lemmas). -/
def pNeed : RawNode → ℕ
  | .mk _ a _ cs => 2 + a.length + pNeedList cs

def pNeedList : List RawNode → ℕ
  | [] => 1
  | c :: cs => 1 + pNeed c + pNeedList cs

end

/-- A chunk of input that tokenizes to the given tokens in front of any
continuation (its last character cannot merge with what follows). -/
def LexChunkA (s : List Char) (ts : List Tok) : Prop :=
  ∀ (rest : List Char) (pos : ℕ),
    tokenizeFrom (s ++ rest) pos
      = (tokenizeFrom rest (pos + s.length)).map (fun more => ts ++ more)

/-- A chunk of input that tokenizes to the given tokens in front of any
continuation that does not begin with a bare character (its last character
is part of a bare run). -/
def LexChunkB (s : List Char) (ts : List Tok) : Prop :=
  ∀ (rest : List Char) (pos : ℕ), rest.takeWhile isBareChar = [] →
    tokenizeFrom (s ++ rest) pos
      = (tokenizeFrom rest (pos + s.length)).map (fun more => ts ++ more)

/- ===================== Theorems ===================== -/

/-- `Except` bind on a success, as a rewrite rule. -/
@[simp] theorem exOk_bind {α β : Type} (a : α) (f : α → Except PyErr β) :
    (Except.ok a >>= f) = f a := rfl

/-- `Except` bind on a raised exception, as a rewrite rule. -/
@[simp] theorem exErr_bind {α β : Type} (e : PyErr) (f : α → Except PyErr β) :
    ((Except.error e : Except PyErr α) >>= f) = .error e := rfl

/-- C9: on syntactically incomplete inputs whose token sequence ends before
the grammar completes — the empty string, or `A` with no terminating
semicolon — `loadFromString` fails with an out-of-bounds list index error
(`IndexError`, from `tokenList[self.idx]` in `acceptToken`), not with a
`ParseError`. -/
theorem incomplete_input_hits_IndexError :
    loadFromString [] = .error .indexError ∧
    loadFromString ['A'] = .error .indexError ∧
    resultIsParseError (loadFromString []) = false ∧
    resultIsParseError (loadFromString ['A']) = false := by
  refine ⟨?_, ?_, ?_, ?_⟩ <;> with_unfolding_all rfl

/-- C2 (evaluation at the failing input): on `(A,B;` the parser reaches the
mandatory `RPAREN` accept while looking at `SEMI`; line 198 then executes
`raise ParseError(...)` whose unqualified name lookup fails, so Python 2
raises `NameError: global name 'ParseError' is not defined` — not the
`ParseError` (with token kind, value and position) that the claim
describes. -/
theorem missing_rparen_raises_NameError :
    loadFromString "(A,B;".data = .error (.nameError nameErrorMsg) ∧
    resultIsParseError (loadFromString "(A,B;".data) = false := by
  refine ⟨?_, ?_⟩ <;> with_unfolding_all rfl

/-- C3 (counterexample): parsing `A:xyz;` fails with the `ValueError`
raised by `float('xyz')` — there is no try/except around line 313 — not
with a `ParseError` as the claim states. -/
theorem bad_float_raises_ValueError :
    loadFromString "A:xyz;".data = .error (.valueError (floatErrMsg "xyz".data)) ∧
    resultIsParseError (loadFromString "A:xyz;".data) = false := by
  refine ⟨?_, ?_⟩ <;> with_unfolding_all rfl

/-- C4 (counterexample): at a position where no tokenizer rule matches the
code raises `Tree.ParseError` (line 256) naming the character and its
position; no `LexError` class exists in the source, so no `LexError` is
raised. -/
theorem unrecognized_char_raises_ParseError :
    tokenize ['(', '!'] = .error (.parseError (unrecognizedMsg 1 '!')) ∧
    resultIsLexError (tokenize ['(', '!']) = false ∧
    loadFromString ['(', '!'] = .error (.parseError (unrecognizedMsg 1 '!')) := by
  refine ⟨?_, ?_, ?_⟩ <;> with_unfolding_all rfl

/-- C5 (counterexample): a `#NEXUS` header with no `tree ` line leaves the
Newick payload empty, and parsing the empty string fails with `IndexError`
(the parser indexes an empty token list); no `SourceFormatError` class
exists in the source, so none is raised. -/
theorem nexus_without_tree_line_hits_IndexError :
    treeFromNexusLines "#NEXUS".data ["begin trees;".data, "end;".data] = .error .indexError ∧
    resultIsSourceFormatError
      (treeFromNexusLines "#NEXUS".data ["begin trees;".data, "end;".data]) = false := by
  refine ⟨?_, ?_⟩ <;> with_unfolding_all rfl

/-- C6 (counterexample): on `A:-5;` the code's `maxTime` fold starts at
`0.0`, so it computes `0`, not the maximum node time `-5`; the single
node's height is `0 − (−5) = 5`, which differs from
`maxNodeTime − time = 0`, and no node of this tree has height 0. -/
theorem negative_bl_breaks_height_claim :
    loadFromString "A:-5;".data = .ok treeNeg ∧
    treeNeg.root.height = 5 ∧
    maxNodeTime treeNeg.root - treeNeg.root.time = 0 ∧
    ¬ treeNeg.root.height = maxNodeTime treeNeg.root - treeNeg.root.time ∧
    getAllChildren treeNeg.root = [treeNeg.root] ∧
    ¬ treeNeg.root.height = 0 := by
  refine ⟨?_, ?_, ?_, ?_, ?_, ?_⟩
  · with_unfolding_all rfl
  · with_unfolding_all rfl
  · with_unfolding_all decide
  · with_unfolding_all decide
  · with_unfolding_all rfl
  · with_unfolding_all decide

/-- C7 (counterexample): the stripping of quote characters is guarded by
`len(value) > 2` (line 242), so the empty quoted string `""` keeps its two
quote characters: the recorded value is `""` (two quote characters), not
the empty string the claim describes. -/
theorem empty_quoted_string_keeps_quotes :
    tokenize [dqChar, dqChar] = .ok [(.STRING, some [dqChar, dqChar])] ∧
    ¬ tokenValue .STRING [dqChar, dqChar] = some ([] : List Char) ∧
    tokenize [sqChar, sqChar] = .ok [(.STRING, some [sqChar, sqChar])] := by
  refine ⟨?_, ?_, ?_⟩
  · with_unfolding_all rfl
  · with_unfolding_all decide
  · with_unfolding_all rfl

/-- C1 (counterexample): `getNewick` emits no terminating semicolon, so
feeding its output back to `loadFromString` fails (with `IndexError`, the
parser running out of tokens at the mandatory `SEMI`) instead of
succeeding; moreover for a quoted label containing a space the output
fails to tokenize even with a semicolon appended, since the label is
re-emitted bare. -/
theorem getNewick_output_not_reparseable :
    loadFromString "A;".data = .ok treeA ∧
    getNewick treeA = "A:1.0".data ∧
    loadFromString (getNewick treeA) = .error .indexError ∧
    (loadFromString (getNewick treeA)).isOk = false ∧
    loadFromString ([sqChar] ++ "A B".data ++ [sqChar, ';']) = .ok treeAB ∧
    getNewick treeAB = "A B:1.0".data ∧
    loadFromString (getNewick treeAB ++ [';']) = .error (.parseError (unrecognizedMsg 1 ' ')) := by
  refine ⟨?_, ?_, ?_, ?_, ?_, ?_, ?_⟩ <;> with_unfolding_all rfl

/-- C3 (amended): whenever the branch-length production reaches a STRING
whose value `float()` cannot parse — not an `inf`/`nan` literal, which the
builtin accepts (with a nonfinite value outside the rational model), and
not a whitespace-padded numeral, which the builtin strips and accepts —
the parse fails with the `ValueError` raised by `float()`, not a
`ParseError`, and no partial tree is returned: `ruleB` at any context
whose next tokens are `COLON` and such a STRING raises the `ValueError`,
and end-to-end `A:xyz;` fails with it. -/
theorem ruleB_bad_literal_raises_ValueError :
    (∀ (toks : List Tok) (i : ℕ) (w : Option (List Char)) (v : List Char),
      toks.get? i = some (.COLON, w) →
      toks.get? (i + 1) = some (.STRING, some v) →
      isInfNanLit v = false →
      pyFloat v = none →
      ruleB ⟨toks, i⟩ = .error (.valueError (floatErrMsg v))) ∧
    loadFromString "A:xyz;".data = .error (.valueError (floatErrMsg "xyz".data)) := by
  constructor
  · intro toks i w v h1 h2 h3 h4
    simp only [List.get?_eq_getElem?] at h1 h2
    simp [ruleB, acceptToken, getLastValue, h1, h2, h3, h4]
  · with_unfolding_all rfl

/-- C3 witness: the general part of the amended theorem evaluated at the
token stream of `:xyz`. -/
theorem ruleB_bad_literal_witness :
    ruleB ⟨[(.COLON, none), (.STRING, some "xyz".data)], 0⟩ =
      .error (.valueError (floatErrMsg "xyz".data)) :=
  ruleB_bad_literal_raises_ValueError.1 _ 0 none _ rfl rfl
    (by with_unfolding_all rfl) (by with_unfolding_all rfl)

/-- C5 (amended): whenever the first line is a Nexus header (any case) and
no subsequent line begins, after trimming and lowercasing, with `tree `,
tree construction fails — but with the `IndexError` from parsing the empty
payload, not with a `SourceFormatError` (no such class exists in the
source) — and no tree is produced. -/
theorem nexus_without_tree_line_general :
    ∀ (firstLine : List Char) (rest : List (List Char)),
      isPre "#nexus".data (pyLower firstLine) = true →
      findTreeLine rest = none →
      treeFromNexusLines firstLine rest = .error .indexError ∧
      resultIsSourceFormatError (treeFromNexusLines firstLine rest) = false := by
  intro firstLine rest h1 h2
  have h3 : treeFromNexusLines firstLine rest = loadFromString [] := by
    simp [treeFromNexusLines, h1, h2]
  rw [h3]
  refine ⟨?_, ?_⟩ <;> with_unfolding_all rfl

/-- C5 witness: the amended theorem evaluated at a two-line Nexus stream
with a mixed-case header and no tree statement. -/
theorem nexus_without_tree_line_witness :
    treeFromNexusLines "#NeXuS file".data ["begin taxa;".data] = .error .indexError ∧
    resultIsSourceFormatError
      (treeFromNexusLines "#NeXuS file".data ["begin taxa;".data]) = false :=
  nexus_without_tree_line_general _ _ (by with_unfolding_all rfl) (by with_unfolding_all rfl)

/-- Structural induction for `Node` through the nested children lists. -/
theorem Node.indOn (P : Node → Prop)
    (h : ∀ l a b t ht cs, (∀ c ∈ cs, P c) → P (.mk l a b t ht cs)) : ∀ n, P n := by
  intro n
  refine @Node.rec P (fun cs => ∀ c ∈ cs, P c) h ?_ ?_ n
  · intro c hc
    exact absurd hc (List.not_mem_nil c)
  · intro c cs ihc ihcs x hx
    rcases List.mem_cons.mp hx with h1 | h2
    · exact h1 ▸ ihc
    · exact ihcs x h2

/-- Structural induction for `RawNode` through the nested children lists. -/
theorem RawNode.rawIndOn (P : RawNode → Prop)
    (h : ∀ l a b cs, (∀ c ∈ cs, P c) → P (.mk l a b cs)) : ∀ n, P n := by
  intro n
  refine @RawNode.rec P (fun cs => ∀ c ∈ cs, P c) h ?_ ?_ n
  · intro c hc
    exact absurd hc (List.not_mem_nil c)
  · intro c cs ihc ihcs x hx
    rcases List.mem_cons.mp hx with h1 | h2
    · exact h1 ▸ ihc
    · exact ihcs x h2

@[simp] theorem computeTimesList_eq_map (o : ℚ) (cs : List RawNode) :
    computeTimesList o cs = cs.map (computeTimes o) := by
  induction cs with
  | nil => rfl
  | cons c cs ih => simp [computeTimesList, ih]

@[simp] theorem setHeightsList_eq_map (m : ℚ) (cs : List Node) :
    setHeightsList m cs = cs.map (setHeights m) := by
  induction cs with
  | nil => rfl
  | cons c cs ih => simp [setHeightsList, ih]

@[simp] theorem getAllChildrenList_eq_flatMap (cs : List Node) :
    getAllChildrenList cs = cs.flatMap getAllChildren := by
  induction cs with
  | nil => rfl
  | cons c cs ih => simp [getAllChildrenList, ih]

@[simp] theorem computeTimes_time (o : ℚ) (r : RawNode) :
    (computeTimes o r).time = o + r.branchLength := by
  cases r; rfl

@[simp] theorem computeTimes_branchLength (o : ℚ) (r : RawNode) :
    (computeTimes o r).branchLength = r.branchLength := by
  cases r; rfl

@[simp] theorem setHeights_time (m : ℚ) (n : Node) :
    (setHeights m n).time = n.time := by
  cases n; rfl

@[simp] theorem setHeights_height (m : ℚ) (n : Node) :
    (setHeights m n).height = m - n.time := by
  cases n; rfl

@[simp] theorem setHeights_branchLength (m : ℚ) (n : Node) :
    (setHeights m n).branchLength = n.branchLength := by
  cases n; rfl

@[simp] theorem setHeights_children (m : ℚ) (n : Node) :
    (setHeights m n).children = n.children.map (setHeights m) := by
  cases n; simp [setHeights, Node.children]

/-- A node is the head of its own preorder list. -/
theorem getAllChildren_eq_cons (n : Node) :
    getAllChildren n = n :: n.children.flatMap getAllChildren := by
  cases n; simp [getAllChildren, Node.children]

theorem self_mem_getAllChildren (n : Node) : n ∈ getAllChildren n := by
  rw [getAllChildren_eq_cons]; exact List.mem_cons_self n _

/-- Projection values on a constructed node, as rewrite rules. -/
@[simp] theorem Node.time_mk (l a b t h cs) : (Node.mk l a b t h cs).time = t := rfl

@[simp] theorem Node.height_mk (l a b t h cs) : (Node.mk l a b t h cs).height = h := rfl

@[simp] theorem Node.branchLength_mk (l a b t h cs) :
    (Node.mk l a b t h cs).branchLength = b := rfl

@[simp] theorem Node.label_mk (l a b t h cs) : (Node.mk l a b t h cs).label = l := rfl

@[simp] theorem Node.annots_mk (l a b t h cs) : (Node.mk l a b t h cs).annots = a := rfl

@[simp] theorem Node.children_mk (l a b t h cs) : (Node.mk l a b t h cs).children = cs := rfl

@[simp] theorem RawNode.rawLabel_mk (l a b cs) : (RawNode.mk l a b cs).label = l := rfl

@[simp] theorem RawNode.rawAnnots_mk (l a b cs) : (RawNode.mk l a b cs).annots = a := rfl

@[simp] theorem RawNode.rawBranchLength_mk (l a b cs) :
    (RawNode.mk l a b cs).branchLength = b := rfl

@[simp] theorem RawNode.rawChildren_mk (l a b cs) : (RawNode.mk l a b cs).children = cs := rfl

/-- Preorder traversal commutes with the height pass. -/
theorem getAllChildren_setHeights (m : ℚ) (n : Node) :
    getAllChildren (setHeights m n) = (getAllChildren n).map (setHeights m) := by
  induction n using Node.indOn with
  | _ l a b t ht cs ih =>
    simp only [getAllChildren_eq_cons, setHeights_children, Node.children_mk, setHeights]
    simp only [setHeightsList_eq_map, List.map_cons, List.flatMap_map]
    congr 1
    · simp [setHeights]
    · rw [List.map_flatMap]
      exact List.flatMap_congr ih

/-- The parent-child time relation established by `computeTimes`: every
child's time is its parent's time plus its own branch length. -/
theorem computeTimes_parent_child (r : RawNode) :
    ∀ (o : ℚ), ∀ x ∈ getAllChildren (computeTimes o r),
      ∀ c ∈ x.children, c.time = x.time + c.branchLength := by
  induction r using RawNode.rawIndOn with
  | _ l a b cs ih =>
    intro o x hx c hc
    simp only [computeTimes, computeTimesList_eq_map] at hx
    rw [getAllChildren_eq_cons] at hx
    rcases List.mem_cons.mp hx with h1 | h2
    · subst h1
      simp only [Node.children_mk] at hc
      rcases List.mem_map.mp hc with ⟨c0, hc0, rfl⟩
      simp
    · simp only [Node.children_mk, List.mem_flatMap] at h2
      rcases h2 with ⟨y, hy, hxy⟩
      rcases List.mem_map.mp hy with ⟨c0, hc0, rfl⟩
      exact ih c0 hc0 (o + b) x hxy c hc

theorem foldl_max_init_le (l : List ℚ) : ∀ a : ℚ, a ≤ l.foldl max a := by
  induction l with
  | nil => intro a; exact le_refl a
  | cons x xs ih => intro a; exact le_trans (le_max_left a x) (ih (max a x))

theorem foldl_max_mem_le (l : List ℚ) : ∀ (a x : ℚ), x ∈ l → x ≤ l.foldl max a := by
  induction l with
  | nil => intro a x hx; cases hx
  | cons y ys ih =>
    intro a x hx
    rcases List.mem_cons.mp hx with rfl | h2
    · exact le_trans (le_max_right a x) (foldl_max_init_le ys (max a x))
    · exact ih (max a y) x h2

theorem foldl_max_cases (l : List ℚ) : ∀ a : ℚ, l.foldl max a = a ∨ l.foldl max a ∈ l := by
  induction l with
  | nil => intro a; exact Or.inl rfl
  | cons y ys ih =>
    intro a
    rcases ih (max a y) with h | h
    · rcases max_cases a y with ⟨h1, _⟩ | ⟨h1, _⟩
      · left
        show List.foldl max (max a y) ys = a
        rw [h, h1]
      · right
        show List.foldl max (max a y) ys ∈ y :: ys
        rw [h, h1]
        exact List.mem_cons_self y ys
    · exact Or.inr (List.mem_cons_of_mem y h)

theorem foldl_max_acc (l : List ℚ) : ∀ a b : ℚ, l.foldl max (max a b) = max a (l.foldl max b) := by
  induction l with
  | nil => intro a b; rfl
  | cons y ys ih => intro a b; simp only [List.foldl, max_assoc]; exact ih a (max b y)

theorem foldl_max_time (l : List Node) :
    ∀ a : ℚ, l.foldl (fun m n => max m n.time) a = (l.map Node.time).foldl max a := by
  induction l with
  | nil => intro a; rfl
  | cons y ys ih => intro a; simp only [List.foldl, List.map_cons]; exact ih (max a y.time)

theorem treeMaxTime_eq_foldl (root : Node) :
    treeMaxTime root = ((getAllChildren root).map Node.time).foldl max 0 :=
  foldl_max_time (getAllChildren root) 0

/-- The code's `maxTime` (fold of `max` started at 0.0) is the 0-floored
maximum node time. -/
theorem treeMaxTime_eq_max_zero (root : Node) :
    treeMaxTime root = max 0 (maxNodeTime root) := by
  rw [treeMaxTime_eq_foldl]
  unfold maxNodeTime
  rw [getAllChildren_eq_cons root, List.map_cons]
  have h1 : (0 : ℚ) = max 0 0 := by simp
  calc (root.time :: (root.children.flatMap getAllChildren).map Node.time).foldl max 0
      = ((root.children.flatMap getAllChildren).map Node.time).foldl max (max 0 root.time) := rfl
    _ = max 0 (((root.children.flatMap getAllChildren).map Node.time).foldl max root.time) :=
        foldl_max_acc _ 0 root.time
    _ = max 0 ((root.time :: (root.children.flatMap getAllChildren).map Node.time).foldl max root.time) := by
        simp only [List.foldl, max_self]

/-- Every successful `loadFromString` result is the finalization of some
parser output. -/
theorem loadFromString_ok_shape (s : List Char) (t : Tree)
    (h : loadFromString s = .ok t) : ∃ raw : RawNode, t = finalize raw := by
  unfold loadFromString at h
  cases htok : tokenize s with
  | error e => rw [htok] at h; simp at h
  | ok toks =>
    rw [htok] at h
    simp only [exOk_bind] at h
    cases hN : ruleN (2 * toks.length + 8) ⟨toks, 0⟩ with
    | error e => rw [hN] at h; simp at h
    | ok pr =>
      rw [hN] at h
      obtain ⟨raw, ctx⟩ := pr
      simp only [exOk_bind] at h
      cases hA : acceptToken ctx .SEMI true with
      | error e => rw [hA] at h; simp at h
      | ok r2 =>
        rw [hA] at h
        obtain ⟨b2, c2⟩ := r2
        simp only [exOk_bind, Except.ok.injEq] at h
        exact ⟨raw, h.symm⟩

/-- Times are unchanged by the height pass, so the recomputed maxima on the
final tree agree with those used while building it. -/
theorem times_of_final (m : ℚ) (r : Node) :
    (getAllChildren (setHeights m r)).map Node.time = (getAllChildren r).map Node.time := by
  rw [getAllChildren_setHeights, List.map_map]
  exact List.map_congr_left (fun x _ => setHeights_time m x)

theorem maxNodeTime_of_final (m : ℚ) (r : Node) :
    maxNodeTime (setHeights m r) = maxNodeTime r := by
  unfold maxNodeTime
  rw [times_of_final, setHeights_time]

/-- C6 (amended): for every tree built by parsing, every node's height is
`max(0, maxNodeTime) − time` — the code's fold starts at `0.0`, so its
`maxTime` is the 0-floored maximum node time rather than the plain maximum
named by the claim — consequently every height is ≥ 0 unconditionally, and
some node attains height exactly 0 provided some node time is nonnegative
(in particular whenever all branch lengths are nonnegative). -/
theorem heights_use_zero_floored_max :
    ∀ (s : List Char) (t : Tree), loadFromString s = .ok t →
      (∀ n ∈ getAllChildren t.root,
          n.height = max 0 (maxNodeTime t.root) - n.time ∧ 0 ≤ n.height) ∧
      ((∃ n ∈ getAllChildren t.root, 0 ≤ n.time) →
        ∃ n ∈ getAllChildren t.root, n.height = 0) := by
  intro s t h
  obtain ⟨raw, rfl⟩ := loadFromString_ok_shape s t h
  show _ ∧ _
  set r := computeTimes 0 raw with hr
  set m := treeMaxTime r with hm
  have hroot : (finalize raw).root = setHeights m r := rfl
  have hmax : max 0 (maxNodeTime (finalize raw).root) = m := by
    rw [hroot, maxNodeTime_of_final, hm, treeMaxTime_eq_max_zero]
  constructor
  · intro n hn
    rw [hroot] at hn
    rw [getAllChildren_setHeights] at hn
    rcases List.mem_map.mp hn with ⟨n0, hn0, rfl⟩
    have htle : n0.time ≤ m := by
      rw [hm, treeMaxTime_eq_foldl]
      exact foldl_max_mem_le _ 0 n0.time (List.mem_map.mpr ⟨n0, hn0, rfl⟩)
    refine ⟨?_, ?_⟩
    · rw [setHeights_height, setHeights_time, hmax]
    · rw [setHeights_height]
      linarith
  · intro hex
    rcases foldl_max_cases ((getAllChildren r).map Node.time) 0 with hzero | hmem
    · rcases hex with ⟨n, hn, hnt⟩
      rw [hroot, getAllChildren_setHeights] at hn
      rcases List.mem_map.mp hn with ⟨n0, hn0, rfl⟩
      refine ⟨setHeights m n0, by rw [hroot, getAllChildren_setHeights]; exact List.mem_map.mpr ⟨n0, hn0, rfl⟩, ?_⟩
      have htle : n0.time ≤ m := by
        rw [hm, treeMaxTime_eq_foldl]
        exact foldl_max_mem_le _ 0 n0.time (List.mem_map.mpr ⟨n0, hn0, rfl⟩)
      have hm0 : m = 0 := by rw [hm, treeMaxTime_eq_foldl]; exact hzero
      rw [setHeights_time] at hnt
      rw [setHeights_height]
      have : n0.time = 0 := le_antisymm (hm0 ▸ htle) hnt
      rw [this, hm0, sub_zero]
    · rcases List.mem_map.mp hmem with ⟨n0, hn0, hteq⟩
      refine ⟨setHeights m n0, by rw [hroot, getAllChildren_setHeights]; exact List.mem_map.mpr ⟨n0, hn0, rfl⟩, ?_⟩
      rw [setHeights_height, hm, treeMaxTime_eq_foldl, ← hteq]
      ring

/-- C6 witness: the amended theorem evaluated on the tree parsed from
`(A:2,B:3);`. -/
theorem heights_use_zero_floored_max_witness :
    (∀ n ∈ getAllChildren tree2.root,
        n.height = max 0 (maxNodeTime tree2.root) - n.time ∧ 0 ≤ n.height) ∧
      ((∃ n ∈ getAllChildren tree2.root, 0 ≤ n.time) →
        ∃ n ∈ getAllChildren tree2.root, n.height = 0) :=
  heights_use_zero_floored_max "(A:2,B:3);".data tree2 (by with_unfolding_all rfl)

/-- C10: for every parsed tree, the branch-length value `getNewick` writes
for a non-root node — `parent.height − node.height` — equals the node's own
`branchLength` exactly in rational arithmetic, and the value written for
the root — `origin − height` — equals the root's `branchLength`. -/
theorem newick_bl_equals_branchLength :
    ∀ (s : List Char) (t : Tree), loadFromString s = .ok t →
      (∀ n ∈ getAllChildren t.root, ∀ c ∈ n.children,
        n.height - c.height = c.branchLength) ∧
      t.origin - t.root.height = t.root.branchLength := by
  intro s t h
  obtain ⟨raw, rfl⟩ := loadFromString_ok_shape s t h
  set r := computeTimes 0 raw with hr
  set m := treeMaxTime r with hm
  have hroot : (finalize raw).root = setHeights m r := rfl
  constructor
  · intro n hn c hc
    rw [hroot, getAllChildren_setHeights] at hn
    rcases List.mem_map.mp hn with ⟨n0, hn0, rfl⟩
    rw [setHeights_children] at hc
    rcases List.mem_map.mp hc with ⟨c0, hc0, rfl⟩
    have := computeTimes_parent_child raw 0 n0 hn0 c0 hc0
    rw [setHeights_height, setHeights_height, setHeights_branchLength, this]
    ring
  · show (finalize raw).root.height + (finalize raw).root.branchLength
        - (finalize raw).root.height = (finalize raw).root.branchLength
    ring

/-- C10 witness: the theorem evaluated on the tree parsed from
`(X:0.5,Y:1.5)R:2;`. -/
theorem newick_bl_equals_branchLength_witness :
    (∀ n ∈ getAllChildren tree3.root, ∀ c ∈ n.children,
        n.height - c.height = c.branchLength) ∧
      tree3.origin - tree3.root.height = tree3.root.branchLength :=
  newick_bl_equals_branchLength "(X:0.5,Y:1.5)R:2;".data tree3 (by with_unfolding_all rfl)

theorem matchChar_sound (c : Char) (s raw rest : List Char)
    (h : matchChar c s = some (raw, rest)) : s = raw ++ rest ∧ raw ≠ [] := by
  cases s with
  | nil => simp [matchChar] at h
  | cons x xs =>
    by_cases hx : x = c
    · simp only [matchChar, hx, if_pos, Option.some.injEq, Prod.mk.injEq] at h
      rcases h with ⟨rfl, rfl⟩
      exact ⟨by simp [hx], by simp⟩
    · simp [matchChar, hx] at h

theorem matchOpenA_sound (s raw rest : List Char)
    (h : matchOpenA s = some (raw, rest)) : s = raw ++ rest ∧ raw ≠ [] := by
  match s with
  | [] => simp [matchOpenA] at h
  | [x] => simp [matchOpenA] at h
  | x :: y :: tl =>
    by_cases hx : x = '['
    · by_cases hy : y = '&'
      · simp only [matchOpenA, hx, hy, if_pos, Option.some.injEq, Prod.mk.injEq] at h
        rcases h with ⟨rfl, rfl⟩
        exact ⟨by simp [hx, hy], by simp⟩
      · simp [matchOpenA, hx, hy] at h
    · simp [matchOpenA, hx] at h

theorem matchQuoted_sound (q : Char) (s raw rest : List Char)
    (h : matchQuoted q s = some (raw, rest)) : s = raw ++ rest ∧ raw ≠ [] := by
  cases s with
  | nil => simp [matchQuoted] at h
  | cons x xs =>
    by_cases hx : x = q
    · cases hdrop : List.dropWhile (fun c => c != q) xs with
      | nil => simp [matchQuoted, hx, hdrop] at h
      | cons y r =>
        simp only [matchQuoted, hx, if_pos, hdrop, Option.some.injEq, Prod.mk.injEq] at h
        rcases h with ⟨rfl, rfl⟩
        refine ⟨?_, List.cons_ne_nil _ _⟩
        have hsplit := List.takeWhile_append_dropWhile (fun c => c != q) xs
        rw [hdrop] at hsplit
        simp only [List.cons_append, List.append_assoc, List.singleton_append,
          List.nil_append, hsplit, hx]
    · simp [matchQuoted, hx] at h

theorem matchBare_sound (s raw rest : List Char)
    (h : matchBare s = some (raw, rest)) : s = raw ++ rest ∧ raw ≠ [] := by
  cases htake : s.takeWhile isBareChar with
  | nil => simp [matchBare, htake] at h
  | cons c cs =>
    simp only [matchBare, htake, Option.some.injEq, Prod.mk.injEq] at h
    rcases h with ⟨rfl, rfl⟩
    refine ⟨?_, List.cons_ne_nil c cs⟩
    rw [← htake]
    exact (List.takeWhile_append_dropWhile isBareChar s).symm

theorem lexFirst_sound (rs : List (TokKind × (List Char → Option (List Char × List Char))))
    (hrs : ∀ p ∈ rs, ∀ s raw rest, p.2 s = some (raw, rest) → s = raw ++ rest ∧ raw ≠ []) :
    ∀ s k raw rest, lexFirst rs s = some (k, raw, rest) → s = raw ++ rest ∧ raw ≠ [] := by
  induction rs with
  | nil => intro s k raw rest h; simp [lexFirst] at h
  | cons hd tl ih =>
    intro s k raw rest h
    obtain ⟨k0, m0⟩ := hd
    cases hm : m0 s with
    | some p =>
      simp only [lexFirst, hm, Option.some.injEq, Prod.mk.injEq] at h
      rcases h with ⟨rfl, rfl, rfl⟩
      exact hrs (k0, m0) (List.mem_cons_self _ _) s p.1 p.2 (by simp only []; rw [hm])
    | none =>
      simp only [lexFirst, hm] at h
      exact ih (fun p hp => hrs p (List.mem_cons_of_mem _ hp)) s k raw rest h

theorem lexOne_sound (s : List Char) (k : TokKind) (raw rest : List Char)
    (h : lexOne s = some (k, raw, rest)) : s = raw ++ rest ∧ raw ≠ [] := by
  refine lexFirst_sound tokenRules ?_ s k raw rest h
  intro p hp
  simp only [tokenRules, List.mem_cons, List.not_mem_nil, or_false] at hp
  rcases hp with rfl | rfl | rfl | rfl | rfl | rfl | rfl | rfl | rfl | rfl | rfl
  · exact matchChar_sound '('
  · exact matchChar_sound ')'
  · exact matchChar_sound ':'
  · exact matchQuoted_sound dqChar
  · exact matchQuoted_sound sqChar
  · exact matchBare_sound
  · exact matchOpenA_sound
  · exact matchChar_sound '='
  · exact matchChar_sound ']'
  · exact matchChar_sound ','
  · exact matchChar_sound ';'

theorem lexOne_rest_length (s : List Char) (k : TokKind) (raw rest : List Char)
    (h : lexOne s = some (k, raw, rest)) : rest.length < s.length := by
  obtain ⟨hs, hraw⟩ := lexOne_sound s k raw rest h
  subst hs
  have : 0 < raw.length := List.length_pos.mpr hraw
  simp [List.length_append]
  omega

/-- Any position the tokenizer loop reaches where no rule matches makes
the whole tokenization fail with the `ParseError` naming that position's
character. -/
theorem tokenizeAux_reaches_error (s r : List Char) (pos p : ℕ)
    (hreach : LexReaches s pos r p) (hnone : lexOne r = none) :
    ∀ (c : Char) (r2 : List Char), r = c :: r2 →
    ∀ fuel, s.length < fuel →
    tokenizeAux fuel s pos = .error (.parseError (unrecognizedMsg p c)) := by
  induction hreach with
  | refl s pos =>
    intro c r2 hr fuel hfuel
    subst hr
    cases fuel with
    | zero => omega
    | succ f => simp [tokenizeAux, hnone]
  | step hlex hrest ih =>
    intro c r2 hr fuel hfuel
    rename_i s0 pos0 k raw rest r p
    cases fuel with
    | zero => omega
    | succ f =>
      cases s0 with
      | nil =>
        have : lexOne [] = none := by with_unfolding_all rfl
        rw [this] at hlex
        exact absurd hlex (by simp)
      | cons c0 cs0 =>
        have hlen : rest.length < (c0 :: cs0).length := lexOne_rest_length _ _ _ _ hlex
        have := ih hnone c r2 hr f (by omega)
        simp [tokenizeAux, hlex, this]

/-- C4 (amended): at every position the tokenizer actually reaches where no
rule matches, tokenization fails immediately — but with the code's
`Tree.ParseError` naming the offending character and its position, not
with a `LexError` (no such class exists in the source). -/
theorem lex_failure_raises_ParseError :
    ∀ (s r2 : List Char) (c : Char) (p : ℕ),
      LexReaches s 0 (c :: r2) p → lexOne (c :: r2) = none →
      tokenize s = .error (.parseError (unrecognizedMsg p c)) ∧
      resultIsLexError (tokenize s) = false := by
  intro s r2 c p h1 h2
  have h3 := tokenizeAux_reaches_error s (c :: r2) 0 p h1 h2 c r2 rfl (s.length + 1)
    (by omega)
  have h4 : tokenize s = .error (.parseError (unrecognizedMsg p c)) := h3
  exact ⟨h4, by rw [h4]; rfl⟩

/-- C4 witness: the amended theorem evaluated on `A !`, which fails at the
space at position 1. -/
theorem lex_failure_raises_ParseError_witness :
    tokenize "A !".data = .error (.parseError (unrecognizedMsg 1 ' ')) ∧
    resultIsLexError (tokenize "A !".data) = false :=
  lex_failure_raises_ParseError "A !".data ['!'] ' ' 1
    (LexReaches.step
      (show lexOne "A !".data = some (.STRING, ['A'], [' ', '!']) by with_unfolding_all rfl)
      (LexReaches.refl [' ', '!'] 1))
    (by with_unfolding_all rfl)

theorem takeWhile_append_all (p : Char → Bool) (l1 l2 : List Char) (h : l1.all p = true) :
    (l1 ++ l2).takeWhile p = l1 ++ l2.takeWhile p := by
  induction l1 with
  | nil => simp
  | cons x xs ih =>
    simp only [List.all_cons, Bool.and_eq_true] at h
    simp [List.takeWhile_cons_of_pos h.1, ih h.2]

theorem dropWhile_append_all (p : Char → Bool) (l1 l2 : List Char) (h : l1.all p = true) :
    (l1 ++ l2).dropWhile p = l2.dropWhile p := by
  induction l1 with
  | nil => simp
  | cons x xs ih =>
    simp only [List.all_cons, Bool.and_eq_true] at h
    simp [List.dropWhile_cons_of_pos h.1, ih h.2]

theorem dropWhile_eq_self_of_takeWhile_nil (p : Char → Bool) (l : List Char)
    (h : l.takeWhile p = []) : l.dropWhile p = l := by
  cases l with
  | nil => rfl
  | cons x xs =>
    by_cases hp : p x
    · rw [List.takeWhile_cons_of_pos hp] at h
      exact absurd h (by simp)
    · exact List.dropWhile_cons_of_neg hp

theorem matchChar_cons_ne (c x : Char) (xs : List Char) (h : x ≠ c) :
    matchChar c (x :: xs) = none := by
  simp [matchChar, h]

theorem matchQuoted_cons_ne (q x : Char) (xs : List Char) (h : x ≠ q) :
    matchQuoted q (x :: xs) = none := by
  simp [matchQuoted, h]

theorem matchBare_cons_ne (x : Char) (xs : List Char) (h : isBareChar x = false) :
    matchBare (x :: xs) = none := by
  simp [matchBare, List.takeWhile_cons, h]

/-- Running the quoted-string rule on an opening quote, quote-free middle
and closing quote. -/
theorem matchQuoted_run (q : Char) (mid rest : List Char)
    (hmid : mid.all (fun c => c != q) = true) :
    matchQuoted q (q :: mid ++ q :: rest) = some (q :: (mid ++ [q]), rest) := by
  have hdrop : (mid ++ q :: rest).dropWhile (fun c => c != q) = q :: rest := by
    rw [dropWhile_append_all _ _ _ hmid]
    simp [List.dropWhile_cons]
  have htake : (mid ++ q :: rest).takeWhile (fun c => c != q) = mid := by
    rw [takeWhile_append_all _ _ _ hmid]
    simp [List.takeWhile_cons]
  simp [matchQuoted, hdrop, htake]

/-- Running the bare-string rule on a nonempty bare run followed by a
non-bare (or empty) remainder. -/
theorem matchBare_run (w rest : List Char) (hw : w ≠ [])
    (hall : w.all isBareChar = true) (hrest : rest.takeWhile isBareChar = []) :
    matchBare (w ++ rest) = some (w, rest) := by
  have htake : (w ++ rest).takeWhile isBareChar = w := by
    rw [takeWhile_append_all _ _ _ hall, hrest, List.append_nil]
  have hdrop : (w ++ rest).dropWhile isBareChar = rest := by
    rw [dropWhile_append_all _ _ _ hall]
    exact dropWhile_eq_self_of_takeWhile_nil _ _ hrest
  cases w with
  | nil => exact absurd rfl hw
  | cons c cs =>
    simp only [List.cons_append] at htake hdrop
    simp [matchBare, htake, hdrop]

/-- A bare character is none of the delimiter or quote characters. -/
theorem bareChar_ne (c : Char) (h : isBareChar c = true) :
    c ≠ '(' ∧ c ≠ ')' ∧ c ≠ ':' ∧ c ≠ dqChar ∧ c ≠ sqChar := by
  refine ⟨?_, ?_, ?_, ?_, ?_⟩ <;>
    (rintro rfl; revert h; with_unfolding_all decide)

/-- The tokenizer step on a double-quoted string. -/
theorem lexOne_dquoted (mid rest : List Char)
    (hmid : mid.all (fun c => c != dqChar) = true) :
    lexOne (dqChar :: mid ++ dqChar :: rest)
      = some (.STRING, dqChar :: (mid ++ [dqChar]), rest) := by
  have h1 : matchChar '(' (dqChar :: (mid ++ dqChar :: rest)) = none :=
    matchChar_cons_ne _ _ _ (by with_unfolding_all decide)
  have h2 : matchChar ')' (dqChar :: (mid ++ dqChar :: rest)) = none :=
    matchChar_cons_ne _ _ _ (by with_unfolding_all decide)
  have h3 : matchChar ':' (dqChar :: (mid ++ dqChar :: rest)) = none :=
    matchChar_cons_ne _ _ _ (by with_unfolding_all decide)
  have h4 := matchQuoted_run dqChar mid rest hmid
  simp only [List.cons_append] at h4
  simp [lexOne, tokenRules, lexFirst, h1, h2, h3, h4]

/-- The tokenizer step on a single-quoted string. -/
theorem lexOne_squoted (mid rest : List Char)
    (hmid : mid.all (fun c => c != sqChar) = true) :
    lexOne (sqChar :: mid ++ sqChar :: rest)
      = some (.STRING, sqChar :: (mid ++ [sqChar]), rest) := by
  have h1 : matchChar '(' (sqChar :: (mid ++ sqChar :: rest)) = none :=
    matchChar_cons_ne _ _ _ (by with_unfolding_all decide)
  have h2 : matchChar ')' (sqChar :: (mid ++ sqChar :: rest)) = none :=
    matchChar_cons_ne _ _ _ (by with_unfolding_all decide)
  have h3 : matchChar ':' (sqChar :: (mid ++ sqChar :: rest)) = none :=
    matchChar_cons_ne _ _ _ (by with_unfolding_all decide)
  have h4 : matchQuoted dqChar (sqChar :: (mid ++ sqChar :: rest)) = none :=
    matchQuoted_cons_ne _ _ _ (by with_unfolding_all decide)
  have h5 := matchQuoted_run sqChar mid rest hmid
  simp only [List.cons_append] at h5
  simp [lexOne, tokenRules, lexFirst, h1, h2, h3, h4, h5]

/-- The tokenizer step on a bare string. -/
theorem lexOne_bare (w rest : List Char) (hw : w ≠ [])
    (hall : w.all isBareChar = true) (hrest : rest.takeWhile isBareChar = []) :
    lexOne (w ++ rest) = some (.STRING, w, rest) := by
  cases w with
  | nil => exact absurd rfl hw
  | cons c cs =>
    simp only [List.all_cons, Bool.and_eq_true] at hall
    obtain ⟨hne1, hne2, hne3, hne4, hne5⟩ := bareChar_ne c hall.1
    have h1 : matchChar '(' (c :: (cs ++ rest)) = none := matchChar_cons_ne _ _ _ hne1
    have h2 : matchChar ')' (c :: (cs ++ rest)) = none := matchChar_cons_ne _ _ _ hne2
    have h3 : matchChar ':' (c :: (cs ++ rest)) = none := matchChar_cons_ne _ _ _ hne3
    have h4 : matchQuoted dqChar (c :: (cs ++ rest)) = none := matchQuoted_cons_ne _ _ _ hne4
    have h5 : matchQuoted sqChar (c :: (cs ++ rest)) = none := matchQuoted_cons_ne _ _ _ hne5
    have h6 : matchBare ((c :: cs) ++ rest) = some (c :: cs, rest) :=
      matchBare_run _ _ (List.cons_ne_nil c cs) (by simp [hall.1, hall.2]) hrest
    simp only [List.cons_append] at h6
    simp [lexOne, tokenRules, lexFirst, h1, h2, h3, h4, h5, h6]

/-- `stringValue` strips the quotes of a quoted token with nonempty
content. -/
theorem stringValue_quoted (q : Char) (hq : q = dqChar ∨ q = sqChar)
    (mid : List Char) (hmid : mid ≠ []) :
    stringValue (q :: (mid ++ [q])) = mid := by
  have hlen : 2 < (q :: (mid ++ [q])).length := by
    simp only [List.length_cons, List.length_append, List.length_cons, List.length_nil]
    have : 0 < mid.length := List.length_pos.mpr hmid
    omega
  have hhead : (q :: (mid ++ [q])).head? = some q := rfl
  have hlast : (q :: (mid ++ [q])).getLast? = some q := by
    have : q :: (mid ++ [q]) = (q :: mid) ++ [q] := by simp
    rw [this, List.getLast?_concat]
  have hdrop : ((q :: (mid ++ [q])).drop 1).dropLast = mid := by
    simp [List.dropLast_concat]
  rcases hq with rfl | rfl
  · rw [stringValue, if_pos hlen, if_pos ⟨hhead, hlast⟩, hdrop]
  · rw [stringValue, if_pos hlen]
    rw [if_neg (fun hcon => by
      rw [hhead] at hcon
      exact absurd (Option.some.injEq .. ▸ hcon.1) (by with_unfolding_all decide))]
    rw [if_pos ⟨hhead, hlast⟩, hdrop]

/-- `stringValue` keeps an empty quoted string as it matched — quotes and
all — because of the `len(value) > 2` guard. -/
theorem stringValue_quoted_empty (q : Char) : stringValue [q, q] = [q, q] := by
  simp [stringValue]

/-- `stringValue` passes bare strings through verbatim. -/
theorem stringValue_bare (w : List Char) (hall : w.all isBareChar = true) :
    stringValue w = w := by
  by_cases hlen : 2 < w.length
  · cases w with
    | nil => rfl
    | cons c cs =>
      simp only [List.all_cons, Bool.and_eq_true] at hall
      obtain ⟨_, _, _, hne4, hne5⟩ := bareChar_ne c hall.1
      rw [stringValue, if_pos hlen]
      rw [if_neg (fun hcon => hne4 (Option.some.injEq .. ▸ hcon.1))]
      rw [if_neg (fun hcon => hne5 (Option.some.injEq .. ▸ hcon.1))]
  · rw [stringValue, if_neg hlen]

/-- C7 (amended): a quoted STRING token with nonempty content has its
surrounding quotes stripped, an EMPTY quoted string keeps its two quote
characters (the stripping is guarded by `len(value) > 2`), and a bare
STRING is recorded verbatim. -/
theorem string_values_recorded :
    (∀ (mid rest : List Char), mid.all (fun c => c != dqChar) = true →
      lexOne (dqChar :: mid ++ dqChar :: rest)
        = some (.STRING, dqChar :: (mid ++ [dqChar]), rest) ∧
      tokenValue .STRING (dqChar :: (mid ++ [dqChar]))
        = some (if mid = [] then [dqChar, dqChar] else mid)) ∧
    (∀ (mid rest : List Char), mid.all (fun c => c != sqChar) = true →
      lexOne (sqChar :: mid ++ sqChar :: rest)
        = some (.STRING, sqChar :: (mid ++ [sqChar]), rest) ∧
      tokenValue .STRING (sqChar :: (mid ++ [sqChar]))
        = some (if mid = [] then [sqChar, sqChar] else mid)) ∧
    (∀ (w rest : List Char), w ≠ [] → w.all isBareChar = true →
      rest.takeWhile isBareChar = [] →
      lexOne (w ++ rest) = some (.STRING, w, rest) ∧
      tokenValue .STRING w = some w) := by
  refine ⟨?_, ?_, ?_⟩
  · intro mid rest hmid
    refine ⟨lexOne_dquoted mid rest hmid, ?_⟩
    by_cases hmide : mid = []
    · subst hmide
      simp [tokenValue, stringValue_quoted_empty]
    · rw [if_neg hmide]
      simp [tokenValue, stringValue_quoted dqChar (Or.inl rfl) mid hmide]
  · intro mid rest hmid
    refine ⟨lexOne_squoted mid rest hmid, ?_⟩
    by_cases hmide : mid = []
    · subst hmide
      simp [tokenValue, stringValue_quoted_empty]
    · rw [if_neg hmide]
      simp [tokenValue, stringValue_quoted sqChar (Or.inr rfl) mid hmide]
  · intro w rest hw hall hrest
    exact ⟨lexOne_bare w rest hw hall hrest, by simp [tokenValue, stringValue_bare w hall]⟩

/-- C7 witness: the amended theorem evaluated on `"ab"`, the empty `''`,
and the bare token `A1`. -/
theorem string_values_recorded_witness :
    (lexOne (dqChar :: ['a', 'b'] ++ dqChar :: [';'])
        = some (.STRING, dqChar :: (['a', 'b'] ++ [dqChar]), [';']) ∧
      tokenValue .STRING (dqChar :: (['a', 'b'] ++ [dqChar]))
        = some (if (['a', 'b'] : List Char) = [] then [dqChar, dqChar] else ['a', 'b'])) ∧
    (lexOne (sqChar :: [] ++ sqChar :: [';'])
        = some (.STRING, sqChar :: ([] ++ [sqChar]), [';']) ∧
      tokenValue .STRING (sqChar :: ([] ++ [sqChar]))
        = some (if ([] : List Char) = [] then [sqChar, sqChar] else [])) ∧
    (lexOne (['A', '1'] ++ [':']) = some (.STRING, ['A', '1'], [':']) ∧
      tokenValue .STRING ['A', '1'] = some ['A', '1']) :=
  ⟨string_values_recorded.1 ['a', 'b'] [';'] (by with_unfolding_all decide),
   string_values_recorded.2.1 [] [';'] (by with_unfolding_all decide),
   string_values_recorded.2.2 ['A', '1'] [':'] (by with_unfolding_all decide)
     (by with_unfolding_all decide) (by with_unfolding_all decide)⟩

@[simp] theorem sortNodeList_eq_map (inc : Bool) (cs : List Node) :
    sortNodeList inc cs = cs.map (sortNode inc) := by
  induction cs with
  | nil => rfl
  | cons c cs ih => simp [sortNodeList, ih]

theorem cladeSizeList_eq_sum (cs : List Node) :
    cladeSizeList cs = (cs.map cladeSize).sum := by
  induction cs with
  | nil => rfl
  | cons c cs ih => simp [cladeSizeList, ih]

/-- The Python sort is a permutation of its input. -/
theorem pySortByKey_perm (key : Node → ℕ) (rev : Bool) (l : List Node) :
    (pySortByKey key rev l).Perm l := by
  unfold pySortByKey
  by_cases hrev : rev
  · simp only [hrev, if_pos]
    exact (List.reverse_perm _).trans ((List.mergeSort_perm _ _).trans (List.reverse_perm l))
  · simp only [hrev, if_neg, Bool.false_eq_true, not_false_eq_true]
    exact List.mergeSort_perm _ _

/-- Sorting a subtree does not change its clade size. -/
theorem sortNode_cladeSize (inc : Bool) : ∀ n : Node,
    cladeSize (sortNode inc n) = cladeSize n := by
  refine Node.indOn _ ?_
  intro l a b t ht cs ih
  show cladeSize (.mk l a b t ht (pySortByKey cladeSize (!inc) (sortNodeList inc cs)))
      = cladeSize (.mk l a b t ht cs)
  simp only [cladeSize, cladeSizeList_eq_sum]
  have h1 : ((pySortByKey cladeSize (!inc) (sortNodeList inc cs)).map cladeSize).Perm
      ((sortNodeList inc cs).map cladeSize) :=
    (pySortByKey_perm cladeSize (!inc) (sortNodeList inc cs)).map cladeSize
  rw [h1.sum_eq, sortNodeList_eq_map, List.map_map]
  have h2 : List.map (cladeSize ∘ sortNode inc) cs = List.map cladeSize cs :=
    List.map_congr_left (fun c hc => ih c hc)
  rw [h2]

theorem cladeKey_trans : ∀ a b c : Node,
    decide (cladeSize a ≤ cladeSize b) = true →
    decide (cladeSize b ≤ cladeSize c) = true →
    decide (cladeSize a ≤ cladeSize c) = true := by
  intro a b c h1 h2
  simp only [decide_eq_true_eq] at *
  omega

theorem cladeKey_total : ∀ a b : Node,
    (decide (cladeSize a ≤ cladeSize b) || decide (cladeSize b ≤ cladeSize a)) = true := by
  intro a b
  simp only [Bool.or_eq_true, decide_eq_true_eq]
  exact Nat.le_total _ _

/-- One application of `sort(increasing=True)` fixes every later one. -/
theorem sortNode_true_idem : ∀ n : Node, sortNode true (sortNode true n) = sortNode true n := by
  refine Node.indOn _ ?_
  intro l a b t ht cs ih
  show sortNode true (.mk l a b t ht (pySortByKey cladeSize false (sortNodeList true cs)))
      = .mk l a b t ht (pySortByKey cladeSize false (sortNodeList true cs))
  simp only [sortNode, sortNodeList_eq_map, pySortByKey, Bool.false_eq_true, if_neg,
    not_false_eq_true]
  congr 1
  have hmapfix : ((cs.map (sortNode true)).mergeSort
        (fun a b => cladeSize a ≤ cladeSize b)).map (sortNode true)
      = (cs.map (sortNode true)).mergeSort (fun a b => cladeSize a ≤ cladeSize b) := by
    have hmem : ∀ x ∈ (cs.map (sortNode true)).mergeSort
        (fun a b => cladeSize a ≤ cladeSize b), sortNode true x = x := by
      intro x hx
      have hx2 : x ∈ cs.map (sortNode true) :=
        (List.mergeSort_perm (cs.map (sortNode true)) _).mem_iff.mp hx
      rcases List.mem_map.mp hx2 with ⟨c, hc, rfl⟩
      exact ih c hc
    rw [List.map_congr_left hmem]
    simp
  rw [hmapfix]
  exact List.mergeSort_of_sorted
    (List.sorted_mergeSort cladeKey_trans cladeKey_total (cs.map (sortNode true)))

/-- A pair of entries of a list, in index order, forms a sublist. -/
theorem pair_get_sublist : ∀ (l : List Node) (i j : ℕ) (hi : i < l.length)
    (hj : j < l.length), i < j →
    [l.get ⟨i, hi⟩, l.get ⟨j, hj⟩].Sublist l := by
  intro l
  induction l with
  | nil => intro i j hi hj hij; simp at hi
  | cons x xs ih =>
    intro i j hi hj hij
    cases i with
    | zero =>
      cases j with
      | zero => omega
      | succ j2 =>
        show ((x :: xs).get ⟨0, hi⟩ :: [(x :: xs).get ⟨j2 + 1, hj⟩]).Sublist (x :: xs)
        have hj2 : j2 < xs.length := by simpa using hj
        have hmem : (x :: xs).get ⟨j2 + 1, hj⟩ ∈ xs := by
          have : (x :: xs).get ⟨j2 + 1, hj⟩ = xs.get ⟨j2, hj2⟩ := rfl
          rw [this]
          exact xs.get_mem j2 hj2
        exact List.Sublist.cons₂ x (List.singleton_sublist.mpr hmem)
    | succ i2 =>
      cases j with
      | zero => omega
      | succ j2 =>
        have hi2 : i2 < xs.length := by simpa using hi
        have hj2 : j2 < xs.length := by simpa using hj
        have h1 : (x :: xs).get ⟨i2 + 1, hi⟩ = xs.get ⟨i2, hi2⟩ := rfl
        have h2 : (x :: xs).get ⟨j2 + 1, hj⟩ = xs.get ⟨j2, hj2⟩ := rfl
        rw [h1, h2]
        exact List.Sublist.cons x (ih i2 j2 hi2 hj2 (by omega))

/-- C8: `sort(increasing=True)` is idempotent on whole trees, and one
application of `sort` (with either value of `increasing`) keeps any two
siblings of equal clade size in their original relative order (stated as:
their sorted images form a sublist of the new child sequence, in the old
order). -/
theorem sort_idempotent_and_stable :
    (∀ t : Tree, treeSort true (treeSort true t) = treeSort true t) ∧
    (∀ (increasing : Bool) (l : Option (List Char))
        (a : List (List Char × List Char)) (b tm ht : ℚ) (cs : List Node)
        (i j : ℕ) (hi : i < cs.length) (hj : j < cs.length), i < j →
        cladeSize (cs.get ⟨i, hi⟩) = cladeSize (cs.get ⟨j, hj⟩) →
        List.Sublist
          [sortNode increasing (cs.get ⟨i, hi⟩), sortNode increasing (cs.get ⟨j, hj⟩)]
          (sortNode increasing (Node.mk l a b tm ht cs)).children) := by
  constructor
  · intro t
    cases t with
    | mk root origin => simp [treeSort, sortNode_true_idem]
  · intro inc l a b tm ht cs i j hi hj hij hkey
    set x := cs.get ⟨i, hi⟩ with hx
    set y := cs.get ⟨j, hj⟩ with hy
    have hpair : [x, y].Sublist cs := pair_get_sublist cs i j hi hj hij
    have hmap : [sortNode inc x, sortNode inc y].Sublist (cs.map (sortNode inc)) :=
      hpair.map (sortNode inc)
    have hkey2 : cladeSize (sortNode inc x) = cladeSize (sortNode inc y) := by
      rw [sortNode_cladeSize, sortNode_cladeSize, hkey]
    show List.Sublist _ (pySortByKey cladeSize (!inc) (sortNodeList inc cs))
    rw [sortNodeList_eq_map]
    cases inc with
    | true =>
      show List.Sublist _ ((cs.map (sortNode true)).mergeSort
        (fun a b => cladeSize a ≤ cladeSize b))
      refine List.sublist_mergeSort cladeKey_trans cladeKey_total ?_ hmap
      simp [List.pairwise_cons, hkey2]
    | false =>
      show List.Sublist _ (((cs.map (sortNode false)).reverse.mergeSort
        (fun a b => cladeSize a ≤ cladeSize b)).reverse)
      have h1 : [sortNode false y, sortNode false x].Sublist
          (cs.map (sortNode false)).reverse := by
        have := hmap.reverse
        simpa using this
      have hpw : List.Pairwise (fun a b => (decide (cladeSize a ≤ cladeSize b)) = true)
          [sortNode false y, sortNode false x] := by
        simp [List.pairwise_cons, hkey2]
      have h2 := List.sublist_mergeSort cladeKey_trans cladeKey_total hpw h1
      have h3 := h2.reverse
      simpa using h3

/-- C8 witness: stability applied to two equal-size leaf siblings under
`sort(increasing=False)` — their order is preserved. -/
theorem sort_stability_witness :
    List.Sublist
      [sortNode false (Node.mk (some ['A']) [] 1 1 0 []),
       sortNode false (Node.mk (some ['B']) [] 1 1 0 [])]
      (sortNode false (Node.mk none [] 1 1 0
        [Node.mk (some ['A']) [] 1 1 0 [], Node.mk (some ['B']) [] 1 1 0 []])).children :=
  sort_idempotent_and_stable.2 false none [] 1 1 0
    [Node.mk (some ['A']) [] 1 1 0 [], Node.mk (some ['B']) [] 1 1 0 []]
    0 1 (by with_unfolding_all decide) (by with_unfolding_all decide)
    (by with_unfolding_all decide) rfl

/- ---------- decimal formatting round-trip ---------- -/

theorem digit_char_facts (d : ℕ) (h : d < 10) :
    (Char.ofNat (48 + d)).isDigit = true ∧ digitVal (Char.ofNat (48 + d)) = d := by
  interval_cases d <;> exact ⟨by with_unfolding_all decide, by with_unfolding_all decide⟩

theorem isBareChar_of_isDigit (c : Char) (h : c.isDigit = true) : isBareChar c = true := by
  simp [isBareChar, h]

theorem digitsToNat_from (ys : List Char) : ∀ a : ℕ,
    ys.foldl (fun a c => 10 * a + digitVal c) a
      = a * 10 ^ ys.length + digitsToNat ys := by
  induction ys with
  | nil => intro a; simp [digitsToNat]
  | cons y ys ih =>
    intro a
    show ys.foldl _ (10 * a + digitVal y) = _
    rw [ih (10 * a + digitVal y)]
    have h2 : digitsToNat (y :: ys) = digitVal y * 10 ^ ys.length + digitsToNat ys := by
      show ys.foldl _ (10 * 0 + digitVal y) = _
      rw [ih (10 * 0 + digitVal y)]
      ring
    rw [h2]
    simp [List.length_cons, pow_succ]
    ring

theorem digitsToNat_append (xs ys : List Char) :
    digitsToNat (xs ++ ys) = digitsToNat xs * 10 ^ ys.length + digitsToNat ys := by
  unfold digitsToNat
  rw [List.foldl_append]
  exact digitsToNat_from ys _

theorem natToDigitsAux_spec : ∀ (f n : ℕ), n < f →
    digitsToNat (natToDigitsAux f n) = n ∧
    (natToDigitsAux f n).all Char.isDigit = true ∧
    natToDigitsAux f n ≠ [] := by
  intro f
  induction f with
  | zero => intro n h; omega
  | succ f ih =>
    intro n h
    by_cases h10 : n < 10
    · refine ⟨?_, ?_, ?_⟩ <;> simp only [natToDigitsAux, if_pos h10]
      · show digitsToNat [Char.ofNat (48 + n)] = n
        have := digit_char_facts n h10
        simp [digitsToNat, this.2]
      · have := digit_char_facts n h10
        simp [this.1]
      · simp
    · have hlt : n / 10 < f := by omega
      obtain ⟨ih1, ih2, ih3⟩ := ih (n / 10) hlt
      have hmod : n % 10 < 10 := Nat.mod_lt n (by omega)
      have hd := digit_char_facts (n % 10) hmod
      refine ⟨?_, ?_, ?_⟩ <;> simp only [natToDigitsAux, if_neg h10]
      · rw [digitsToNat_append, ih1]
        have : digitsToNat [Char.ofNat (48 + n % 10)] = n % 10 := by
          simp [digitsToNat, hd.2]
        rw [this]
        simp
        omega
      · simp only [List.all_append, ih2, Bool.true_and, List.all_cons, List.all_nil,
          Bool.and_true]
        exact hd.1
      · simp

theorem natToDigits_spec (n : ℕ) :
    digitsToNat (natToDigits n) = n ∧ (natToDigits n).all Char.isDigit = true ∧
    natToDigits n ≠ [] :=
  natToDigitsAux_spec (n + 1) n (by omega)

theorem natToDigitsAux_length : ∀ (f n k : ℕ), n < f → 1 ≤ k → n < 10 ^ k →
    (natToDigitsAux f n).length ≤ k := by
  intro f
  induction f with
  | zero => intro n k h; omega
  | succ f ih =>
    intro n k h hk hnk
    by_cases h10 : n < 10
    · simp [natToDigitsAux, if_pos h10]
      omega
    · have hk2 : 2 ≤ k := by
        by_contra hcon
        have : k = 1 := by omega
        subst this
        simp at hnk
        omega
      have hlt : n / 10 < f := by omega
      have hdiv : n / 10 < 10 ^ (k - 1) := by
        have h1 : n < 10 ^ (k - 1) * 10 := by
          have h2 : 10 ^ (k - 1) * 10 = 10 ^ k := by
            rw [← pow_succ]
            congr 1
            omega
          omega
        exact (Nat.div_lt_iff_lt_mul (by omega)).mpr h1
      simp only [natToDigitsAux, if_neg h10, List.length_append, List.length_cons,
        List.length_nil]
      have := ih (n / 10) (k - 1) hlt (by omega) hdiv
      omega

theorem digitsToNat_replicate_zero (j : ℕ) : digitsToNat (List.replicate j '0') = 0 := by
  induction j with
  | zero => rfl
  | succ j ih =>
    show digitsToNat ('0' :: List.replicate j '0') = 0
    have : ('0' :: List.replicate j '0') = [('0' : Char)] ++ List.replicate j '0' := rfl
    rw [this, digitsToNat_append, ih]
    simp [digitsToNat, digitVal]

theorem digitsToNat_padZeros (k : ℕ) (ds : List Char) :
    digitsToNat (padZeros k ds) = digitsToNat ds := by
  unfold padZeros
  rw [digitsToNat_append, digitsToNat_replicate_zero]
  simp

theorem padZeros_length (k : ℕ) (ds : List Char) (h : ds.length ≤ k) :
    (padZeros k ds).length = k := by
  simp [padZeros]
  omega

theorem padZeros_all_digits (k : ℕ) (ds : List Char) (h : ds.all Char.isDigit = true) :
    (padZeros k ds).all Char.isDigit = true := by
  simp only [padZeros, List.all_append, h, Bool.and_true]
  induction k - ds.length with
  | zero => rfl
  | succ j ih => simp [List.replicate_succ]

theorem pow10ExpAux_dvd : ∀ (f d k j : ℕ), pow10ExpAux f d k = some j → d ∣ 10 ^ j := by
  intro f
  induction f with
  | zero => intro d k j h; simp [pow10ExpAux] at h
  | succ f ih =>
    intro d k j h
    by_cases hdvd : d ∣ 10 ^ k
    · simp only [pow10ExpAux, if_pos hdvd, Option.some.injEq] at h
      exact h ▸ hdvd
    · simp only [pow10ExpAux, if_neg hdvd] at h
      exact ih d (k + 1) j h

/-- `pyFloatCore` on `digits . digits`. -/
theorem pyFloatCore_digits_dot (ds fs : List Char) (h1 : ds.all Char.isDigit = true)
    (h2 : fs.all Char.isDigit = true) (hds : ds ≠ []) :
    pyFloatCore (ds ++ '.' :: fs)
      = some (mkRat (Int.ofNat (digitsToNat (ds ++ fs))) (10 ^ fs.length)) := by
  have hip : (ds ++ '.' :: fs).takeWhile Char.isDigit = ds := by
    rw [takeWhile_append_all _ _ _ h1]
    simp [List.takeWhile_cons]
  have hs1 : (ds ++ '.' :: fs).dropWhile Char.isDigit = '.' :: fs := by
    rw [dropWhile_append_all _ _ _ h1]
    simp [List.dropWhile_cons]
  have hfp : fs.takeWhile Char.isDigit = fs := by
    have := takeWhile_append_all Char.isDigit fs [] h2
    simpa using this
  have hfd : fs.dropWhile Char.isDigit = [] := by
    have := dropWhile_append_all Char.isDigit fs [] h2
    simpa using this
  unfold pyFloatCore
  simp only [hip, hs1, hfp, hfd]
  rw [if_neg (by simp [hds])]

/-- Digit strings are bare strings. -/
theorem natToDigits_all_bare (n : ℕ) : (natToDigits n).all isBareChar = true :=
  List.all_eq_true.mpr (fun c hc =>
    isBareChar_of_isDigit c (List.all_eq_true.mp (natToDigits_spec n).2.1 c hc))

theorem padZeros_all_bare (k : ℕ) (ds : List Char) (h : ds.all Char.isDigit = true) :
    (padZeros k ds).all isBareChar = true :=
  List.all_eq_true.mpr (fun c hc =>
    isBareChar_of_isDigit c (List.all_eq_true.mp (padZeros_all_digits k ds h) c hc))

/-- Everything the positional branch prints for a decimal value is a nonempty run
of bare characters. -/
theorem formatFloatPos_bare (q : ℚ) (h : isDecimalQ q = true) :
    bareStr (formatFloatPos q) = true := by
  unfold isDecimalQ at h
  cases hk : pow10Exp q.den with
  | none => rw [hk] at h; simp at h
  | some k =>
    have hminus : isBareChar '-' = true := by with_unfolding_all rfl
    have hdot : isBareChar '.' = true := by with_unfolding_all rfl
    have hzero : isBareChar '0' = true := by with_unfolding_all rfl
    have hsign : (if q < 0 then ['-'] else []).all isBareChar = true := by
      by_cases hq : q < 0 <;> simp [hq, hminus]
    simp only [formatFloatPos, hk]
    by_cases hk0 : k = 0
    · rw [if_pos hk0]
      simp [bareStr, List.all_append, natToDigits_all_bare, hsign, hdot, hzero]
    · rw [if_neg hk0]
      simp [bareStr, List.all_append, natToDigits_all_bare, hsign, hdot,
        padZeros_all_bare k _ (natToDigits_spec _).2.1]

theorem isDigit_ne_sign (c : Char) (h : c.isDigit = true) : c ≠ '-' ∧ c ≠ '+' := by
  refine ⟨?_, ?_⟩ <;> (rintro rfl; revert h; with_unfolding_all decide)

theorem pyFloatSigned_not_signed (c : Char) (tl : List Char) (h1 : c ≠ '-') (h2 : c ≠ '+') :
    pyFloatSigned (c :: tl) = pyFloatCore (c :: tl) := by
  unfold pyFloatSigned
  split
  · rename_i rest heq
    exact absurd (List.cons.injEq .. ▸ heq).1 h1
  · rename_i rest heq
    exact absurd (List.cons.injEq .. ▸ heq).1 h2
  · rfl

/-- The unsigned decimal expansion `formatFloat` prints re-parses to
`|num| / den`. -/
theorem pyFloatCore_formatVal (q : ℚ) (k : ℕ) (hk : pow10Exp q.den = some k) :
    pyFloatCore (if k = 0 then natToDigits q.num.natAbs ++ ['.', '0']
      else natToDigits (q.num.natAbs * (10 ^ k / q.den) / 10 ^ k) ++ '.' ::
        padZeros k (natToDigits (q.num.natAbs * (10 ^ k / q.den) % 10 ^ k)))
      = some ((q.num.natAbs : ℚ) / (q.den : ℚ)) := by
  have hdvd : q.den ∣ 10 ^ k := pow10ExpAux_dvd _ _ _ _ hk
  have hdpos : 0 < q.den := q.den_pos
  by_cases hk0 : k = 0
  · subst hk0
    have hd1 : q.den = 1 := Nat.dvd_one.mp (by simpa using hdvd)
    rw [if_pos rfl]
    have hdigits := natToDigits_spec q.num.natAbs
    have hrun := pyFloatCore_digits_dot (natToDigits q.num.natAbs) ['0']
      hdigits.2.1 (by with_unfolding_all decide) hdigits.2.2
    have hshape : natToDigits q.num.natAbs ++ ['.', '0']
        = natToDigits q.num.natAbs ++ '.' :: ['0'] := rfl
    rw [hshape, hrun]
    congr 1
    have hval : digitsToNat (natToDigits q.num.natAbs ++ ['0'])
        = 10 * q.num.natAbs := by
      rw [digitsToNat_append, hdigits.1]
      have : digitsToNat ['0'] = 0 := by with_unfolding_all rfl
      rw [this]
      simp [mul_comm]
    rw [hval, Rat.mkRat_eq_div, hd1]
    push_cast
    rw [div_eq_div_iff (by positivity) (by norm_num)]
    simp only [Int.ofNat_eq_coe, List.length_singleton]
    push_cast
    rw [Int.cast_natAbs, Int.cast_abs]
    ring
  · rw [if_neg hk0]
    set nv := q.num.natAbs with hnv
    set t := 10 ^ k / q.den with ht
    have htmul : t * q.den = 10 ^ k := Nat.div_mul_cancel hdvd
    have hpow : (0:ℕ) < 10 ^ k := Nat.pos_pow_of_pos k (by omega)
    have hIspec := natToDigits_spec (nv * t / 10 ^ k)
    have hFspec := natToDigits_spec (nv * t % 10 ^ k)
    have hFlen : (natToDigits (nv * t % 10 ^ k)).length ≤ k := by
      refine natToDigitsAux_length _ _ _ (by omega) (by omega) ?_
      exact Nat.mod_lt _ hpow
    have hpadlen : (padZeros k (natToDigits (nv * t % 10 ^ k))).length = k :=
      padZeros_length _ _ hFlen
    have hrun := pyFloatCore_digits_dot (natToDigits (nv * t / 10 ^ k))
      (padZeros k (natToDigits (nv * t % 10 ^ k)))
      hIspec.2.1 (padZeros_all_digits _ _ hFspec.2.1) hIspec.2.2
    rw [hrun]
    congr 1
    have hval : digitsToNat (natToDigits (nv * t / 10 ^ k)
        ++ padZeros k (natToDigits (nv * t % 10 ^ k))) = nv * t := by
      rw [digitsToNat_append, hpadlen, digitsToNat_padZeros, hIspec.1, hFspec.1]
      rw [mul_comm]
      exact Nat.div_add_mod (nv * t) (10 ^ k)
    rw [hval, hpadlen, Rat.mkRat_eq_div]
    have hteq : ((t : ℚ)) * (q.den : ℚ) = ((10 : ℚ)) ^ k := by
      have := congrArg (fun m : ℕ => (m : ℚ)) htmul
      push_cast at this
      exact this
    have htne : (t : ℚ) ≠ 0 := by
      intro hcon
      rw [hcon, zero_mul] at hteq
      have : ((10 : ℚ)) ^ k ≠ 0 := pow_ne_zero k (by norm_num)
      exact this hteq.symm
    have hdne : (q.den : ℚ) ≠ 0 := Nat.cast_ne_zero.mpr (by omega)
    push_cast
    rw [← hteq]
    field_simp
    ring

/-- The sign-and-literal core of `float()` recovers exactly the decimal the
positional branch printed. -/
theorem pyFloatSigned_formatFloatPos (q : ℚ) (h : isDecimalQ q = true) :
    pyFloatSigned (formatFloatPos q) = some q := by
  unfold isDecimalQ at h
  cases hk : pow10Exp q.den with
  | none => rw [hk] at h; simp at h
  | some k =>
    have hcore := pyFloatCore_formatVal q k hk
    have habs : ((q.num.natAbs : ℚ)) / (q.den : ℚ) = |q| := by
      conv_rhs => rw [← Rat.num_div_den q]
      rw [abs_div]
      congr 1
      · rw [Int.cast_natAbs, Int.cast_abs]
      · rw [abs_of_nonneg (by positivity : (0:ℚ) ≤ (q.den : ℚ))]
    by_cases hq : q < 0
    · have hshape : formatFloatPos q
          = '-' :: (if k = 0 then natToDigits q.num.natAbs ++ ['.', '0']
            else natToDigits (q.num.natAbs * (10 ^ k / q.den) / 10 ^ k) ++ '.' ::
              padZeros k (natToDigits (q.num.natAbs * (10 ^ k / q.den) % 10 ^ k))) := by
        simp only [formatFloatPos, hk, if_pos hq]
        by_cases hk0 : k = 0 <;> simp [hk0]
      rw [hshape]
      show (pyFloatCore _).map _ = _
      rw [hcore, habs, abs_of_neg hq]
      show some (- - q) = some q
      rw [neg_neg]
    · have hshape : formatFloatPos q
          = (if k = 0 then natToDigits q.num.natAbs ++ ['.', '0']
            else natToDigits (q.num.natAbs * (10 ^ k / q.den) / 10 ^ k) ++ '.' ::
              padZeros k (natToDigits (q.num.natAbs * (10 ^ k / q.den) % 10 ^ k))) := by
        simp only [formatFloatPos, hk, if_neg hq]
        by_cases hk0 : k = 0 <;> simp [hk0]
      have hbody : ∃ c tl, (if k = 0 then natToDigits q.num.natAbs ++ ['.', '0']
            else natToDigits (q.num.natAbs * (10 ^ k / q.den) / 10 ^ k) ++ '.' ::
              padZeros k (natToDigits (q.num.natAbs * (10 ^ k / q.den) % 10 ^ k)))
          = c :: tl ∧ c.isDigit = true := by
        by_cases hk0 : k = 0
        · obtain ⟨hv, hall, hne⟩ := natToDigits_spec q.num.natAbs
          rw [if_pos hk0]
          cases hds : natToDigits q.num.natAbs with
          | nil => exact absurd hds hne
          | cons c tl =>
            refine ⟨c, tl ++ ['.', '0'], by simp, ?_⟩
            have := List.all_eq_true.mp hall c (by rw [hds]; exact List.mem_cons_self c tl)
            exact this
        · obtain ⟨hv, hall, hne⟩ := natToDigits_spec (q.num.natAbs * (10 ^ k / q.den) / 10 ^ k)
          rw [if_neg hk0]
          cases hds : natToDigits (q.num.natAbs * (10 ^ k / q.den) / 10 ^ k) with
          | nil => exact absurd hds hne
          | cons c tl =>
            refine ⟨c, tl ++ '.' :: padZeros k (natToDigits (q.num.natAbs * (10 ^ k / q.den) % 10 ^ k)), by simp, ?_⟩
            exact List.all_eq_true.mp hall c (by rw [hds]; exact List.mem_cons_self c tl)
      obtain ⟨c, tl, hform, hdig⟩ := hbody
      obtain ⟨hc1, hc2⟩ := isDigit_ne_sign c hdig
      rw [hshape, hform, pyFloatSigned_not_signed c tl hc1 hc2, ← hform, hcore, habs]
      rw [abs_of_nonneg (not_lt.mp hq)]

/-- Bare characters are not Python whitespace. -/
theorem bare_no_space (c : Char) (h : isBareChar c = true) : isPySpace c = false := by
  cases hsp : isPySpace c with
  | false => rfl
  | true =>
    exfalso
    unfold isPySpace at hsp
    simp only [Bool.or_eq_true, beq_iff_eq] at hsp
    rcases hsp with ((((h1 | h1) | h1) | h1) | h1) | h1 <;>
      (subst h1; revert h; with_unfolding_all decide)

theorem dropWhile_of_bare (l : List Char) (h : l.all isBareChar = true) :
    l.dropWhile isPySpace = l := by
  cases l with
  | nil => rfl
  | cons c cs =>
    simp only [List.all_cons, Bool.and_eq_true] at h
    exact List.dropWhile_cons_of_neg (by rw [bare_no_space c h.1]; simp)

/-- `str.strip()` leaves a run of bare characters unchanged. -/
theorem pyStrip_of_bare (l : List Char) (h : l.all isBareChar = true) : pyStrip l = l := by
  unfold pyStrip
  rw [dropWhile_of_bare l h, dropWhile_of_bare l.reverse (by simpa using h),
    List.reverse_reverse]

/-- On whitespace-free input, `float()`'s stripping is invisible. -/
theorem pyFloat_of_bare (s : List Char) (h : s.all isBareChar = true) :
    pyFloat s = pyFloatSigned s := by
  unfold pyFloat
  rw [pyStrip_of_bare s h]

/-- `float()` recovers exactly the decimal the positional branch printed. -/
theorem pyFloat_formatFloatPos (q : ℚ) (h : isDecimalQ q = true) :
    pyFloat (formatFloatPos q) = some q := by
  have hbare := formatFloatPos_bare q h
  unfold bareStr at hbare
  simp only [Bool.and_eq_true] at hbare
  rw [pyFloat_of_bare _ hbare.2]
  exact pyFloatSigned_formatFloatPos q h

/-- In the positional range, `formatFloat` is the positional branch. -/
theorem formatFloat_eq_pos (q : ℚ) (h : usesExponent q = false) :
    formatFloat q = formatFloatPos q := by
  unfold formatFloat
  rw [h]
  rfl

/-- In the positional range, the printed decimal is a bare string. -/
theorem formatFloat_bare (q : ℚ) (h : isDecimalQ q = true)
    (hexp : usesExponent q = false) : bareStr (formatFloat q) = true := by
  rw [formatFloat_eq_pos q hexp]
  exact formatFloatPos_bare q h

/-- ASCII lowercasing fixes digits. -/
theorem digit_toLower (c : Char) (h : c.isDigit = true) : c.toLower = c := by
  unfold Char.isDigit at h
  simp only [Bool.and_eq_true, decide_eq_true_eq] at h
  obtain ⟨h1, h2⟩ := h
  have h2n : c.val.toNat ≤ 57 := h2
  unfold Char.toLower
  rw [if_neg]
  intro hcon
  simp only [Char.toNat] at hcon
  omega

theorem natToDigits_head_digit (n : ℕ) :
    ∃ c tl, natToDigits n = c :: tl ∧ c.isDigit = true := by
  obtain ⟨hv, hall, hne⟩ := natToDigits_spec n
  cases hds : natToDigits n with
  | nil => exact absurd hds hne
  | cons c tl =>
    exact ⟨c, tl, rfl,
      List.all_eq_true.mp hall c (by rw [hds]; exact List.mem_cons_self c tl)⟩

theorem stripSign_cons (c : Char) (tl : List Char) :
    stripSign (c :: tl) = if c = '+' ∨ c = '-' then tl else c :: tl := rfl

theorem stripSign_cons_digit (c : Char) (tl : List Char) (h : c.isDigit = true) :
    stripSign (c :: tl) = c :: tl := by
  obtain ⟨h1, h2⟩ := isDigit_ne_sign c h
  rw [stripSign_cons, if_neg]
  rintro (hc | hc)
  · exact h2 hc
  · exact h1 hc

/-- A lowered string that starts with a digit is none of the `inf`/`nan`
literals. -/
theorem lower_ne_words (c : Char) (r : List Char) (hdig : c.isDigit = true) :
    (decide ((c.toLower :: r) = "inf".data) || decide ((c.toLower :: r) = "infinity".data)
      || decide ((c.toLower :: r) = "nan".data)) = false := by
  have hlc := digit_toLower c hdig
  have hinf : "inf".data = 'i' :: "nf".data := rfl
  have hinfy : "infinity".data = 'i' :: "nfinity".data := rfl
  have hnan : "nan".data = 'n' :: "an".data := rfl
  simp only [hinf, hinfy, hnan, Bool.or_eq_false_iff, decide_eq_false_iff_not,
    List.cons.injEq, not_and, hlc]
  refine ⟨⟨?_, ?_⟩, ?_⟩ <;>
    (intro heq _; rw [heq] at hdig; revert hdig; with_unfolding_all decide)

/-- The positional decimal rendering is never an `inf`/`nan` literal: after
the optional sign its first character is a digit. -/
theorem isInfNanLit_formatFloatPos (q : ℚ) (h : isDecimalQ q = true) :
    isInfNanLit (formatFloatPos q) = false := by
  have hbareAll : (formatFloatPos q).all isBareChar = true := by
    have hb := formatFloatPos_bare q h
    unfold bareStr at hb
    simp only [Bool.and_eq_true] at hb
    exact hb.2
  have hstrip := pyStrip_of_bare _ hbareAll
  unfold isDecimalQ at h
  cases hk : pow10Exp q.den with
  | none => rw [hk] at h; simp at h
  | some k =>
    obtain ⟨x, y, hshape⟩ : ∃ x y, formatFloatPos q
        = (if q < 0 then ['-'] else []) ++ (natToDigits x ++ '.' :: y) := by
      by_cases hk0 : k = 0
      · exact ⟨q.num.natAbs, ['0'], by simp [formatFloatPos, hk, hk0]⟩
      · exact ⟨q.num.natAbs * (10 ^ k / q.den) / 10 ^ k,
          padZeros k (natToDigits (q.num.natAbs * (10 ^ k / q.den) % 10 ^ k)),
          by simp [formatFloatPos, hk, hk0]⟩
    obtain ⟨c, tl, hds, hdig⟩ := natToDigits_head_digit x
    have hw2 : stripSign (pyStrip (formatFloatPos q)) = c :: (tl ++ '.' :: y) := by
      rw [hstrip, hshape, hds]
      by_cases hq : q < 0
      · rw [if_pos hq]
        simp only [List.cons_append, List.nil_append, List.singleton_append]
        show stripSign ('-' :: (c :: (tl ++ '.' :: y))) = _
        rw [stripSign_cons, if_pos (Or.inr rfl)]
      · rw [if_neg hq]
        simp only [List.nil_append, List.cons_append]
        exact stripSign_cons_digit c _ hdig
    simp only [isInfNanLit]
    rw [hw2]
    have hmap : pyLower (c :: (tl ++ '.' :: y))
        = Char.toLower c :: pyLower (tl ++ '.' :: y) := rfl
    rw [hmap]
    exact lower_ne_words c _ hdig

/- ---------- tokenizer chunk machinery ---------- -/

theorem tokenizeAux_fuel_irrel : ∀ (f : ℕ) (s : List Char) (g pos : ℕ),
    s.length < f → s.length < g → tokenizeAux f s pos = tokenizeAux g s pos := by
  intro f
  induction f with
  | zero => intro s g pos hf; omega
  | succ f ih =>
    intro s g pos hf hg
    cases s with
    | nil =>
      cases g with
      | zero => omega
      | succ g => rfl
    | cons c cs =>
      cases g with
      | zero => simp at hg
      | succ g =>
        cases hlex : lexOne (c :: cs) with
        | none => simp [tokenizeAux, hlex]
        | some trip =>
          obtain ⟨k, raw, rest⟩ := trip
          have hlt := lexOne_rest_length _ _ _ _ hlex
          simp only [List.length_cons] at hf hg hlt
          simp only [tokenizeAux, hlex]
          rw [ih rest g (pos + raw.length) (by omega) (by omega)]

theorem tokenizeFrom_step (s : List Char) (k : TokKind) (raw rest : List Char) (pos : ℕ)
    (hlex : lexOne s = some (k, raw, rest)) :
    tokenizeFrom s pos
      = (tokenizeFrom rest (pos + raw.length)).map
          (fun ts => (k, tokenValue k raw) :: ts) := by
  obtain ⟨hs, hraw⟩ := lexOne_sound s k raw rest hlex
  cases s with
  | nil =>
    cases raw with
    | nil => exact absurd rfl hraw
    | cons a b => simp at hs
  | cons c cs =>
    show tokenizeAux ((c :: cs).length + 1) (c :: cs) pos = _
    simp only [tokenizeAux, hlex]
    have hlt := lexOne_rest_length _ _ _ _ hlex
    have hirr : tokenizeAux (c :: cs).length rest (pos + raw.length)
        = tokenizeFrom rest (pos + raw.length) :=
      tokenizeAux_fuel_irrel _ _ _ _ hlt (by omega)
    rw [hirr]
    cases tokenizeFrom rest (pos + raw.length) with
    | ok ts => rfl
    | error e => rfl

theorem lexOne_lparen (s : List Char) : lexOne ('(' :: s) = some (.LPAREN, ['('], s) := rfl

theorem lexOne_rparen (s : List Char) : lexOne (')' :: s) = some (.RPAREN, [')'], s) := rfl

theorem lexOne_colon (s : List Char) : lexOne (':' :: s) = some (.COLON, [':'], s) := rfl

theorem lexOne_opena (s : List Char) :
    lexOne ('[' :: '&' :: s) = some (.OPENA, ['[', '&'], s) := rfl

theorem lexOne_equals (s : List Char) : lexOne ('=' :: s) = some (.EQUALS, ['='], s) := by
  cases s <;> rfl

theorem lexOne_closea (s : List Char) : lexOne (']' :: s) = some (.CLOSEA, [']'], s) := by
  cases s <;> rfl

theorem lexOne_comma (s : List Char) : lexOne (',' :: s) = some (.COMMA, [','], s) := by
  cases s <;> rfl

theorem lexOne_semi (s : List Char) : lexOne (';' :: s) = some (.SEMI, [';'], s) := by
  cases s <;> rfl

/-- A string matched whole as one token is an anywhere-composable chunk. -/
theorem chunkA_of_forall (s1 : List Char) (k : TokKind)
    (hlex : ∀ rest, lexOne (s1 ++ rest) = some (k, s1, rest)) :
    LexChunkA s1 [(k, tokenValue k s1)] := by
  intro rest pos
  rw [tokenizeFrom_step (s1 ++ rest) k s1 rest pos (hlex rest)]
  rfl

theorem chunkA_lparen : LexChunkA ['('] [(.LPAREN, none)] :=
  chunkA_of_forall ['('] .LPAREN (fun rest => lexOne_lparen rest)

theorem chunkA_rparen : LexChunkA [')'] [(.RPAREN, none)] :=
  chunkA_of_forall [')'] .RPAREN (fun rest => lexOne_rparen rest)

theorem chunkA_colon : LexChunkA [':'] [(.COLON, none)] :=
  chunkA_of_forall [':'] .COLON (fun rest => lexOne_colon rest)

theorem chunkA_opena : LexChunkA ['[', '&'] [(.OPENA, none)] :=
  chunkA_of_forall ['[', '&'] .OPENA (fun rest => lexOne_opena rest)

theorem chunkA_equals : LexChunkA ['='] [(.EQUALS, none)] :=
  chunkA_of_forall ['='] .EQUALS (fun rest => lexOne_equals rest)

theorem chunkA_closea : LexChunkA [']'] [(.CLOSEA, none)] :=
  chunkA_of_forall [']'] .CLOSEA (fun rest => lexOne_closea rest)

theorem chunkA_comma : LexChunkA [','] [(.COMMA, none)] :=
  chunkA_of_forall [','] .COMMA (fun rest => lexOne_comma rest)

theorem chunkA_semi : LexChunkA [';'] [(.SEMI, none)] :=
  chunkA_of_forall [';'] .SEMI (fun rest => lexOne_semi rest)

theorem bareStr_ne_dq (v : List Char) (hv : bareStr v = true) :
    v.all (fun c => c != dqChar) = true := by
  simp only [bareStr, Bool.and_eq_true] at hv
  refine List.all_eq_true.mpr (fun c hc => ?_)
  have hb := List.all_eq_true.mp hv.2 c hc
  have := (bareChar_ne c hb).2.2.2.1
  simp [this]

theorem bareStr_ne_sq (v : List Char) (hv : bareStr v = true) :
    v.all (fun c => c != sqChar) = true := by
  simp only [bareStr, Bool.and_eq_true] at hv
  refine List.all_eq_true.mpr (fun c hc => ?_)
  have hb := List.all_eq_true.mp hv.2 c hc
  have := (bareChar_ne c hb).2.2.2.2
  simp [this]

/-- A double-quoted serialized annotation value is an anywhere-composable
chunk whose recorded value is the quoted content. -/
theorem chunkA_dquoted (v : List Char) (hv : bareStr v = true) :
    LexChunkA (dqChar :: (v ++ [dqChar])) [(.STRING, some v)] := by
  intro rest pos
  have hne : v ≠ [] := by
    simp only [bareStr, Bool.and_eq_true] at hv
    simpa using hv.1
  have hlex := lexOne_dquoted v rest (bareStr_ne_dq v hv)
  have hshape : (dqChar :: (v ++ [dqChar])) ++ rest = dqChar :: v ++ dqChar :: rest := by
    simp
  rw [hshape, tokenizeFrom_step _ _ _ _ pos hlex]
  have hval : tokenValue .STRING (dqChar :: (v ++ [dqChar])) = some v := by
    simp [tokenValue, stringValue_quoted dqChar (Or.inl rfl) v hne]
  rw [hval]
  rfl

/-- A bare run is a chunk composable in front of non-bare continuations,
recorded verbatim. -/
theorem chunkB_bare (w : List Char) (hw : bareStr w = true) :
    LexChunkB w [(.STRING, some w)] := by
  intro rest pos hrest
  simp only [bareStr, Bool.and_eq_true] at hw
  have hne : w ≠ [] := by simpa using hw.1
  have hlex := lexOne_bare w rest hne hw.2 hrest
  rw [tokenizeFrom_step _ _ _ _ pos hlex]
  have hval : tokenValue .STRING w = some w := by
    simp [tokenValue, stringValue_bare w hw.2]
  rw [hval]
  rfl

theorem chunkA_nil : LexChunkA [] [] := by
  intro rest pos
  simp only [List.nil_append, List.length_nil, Nat.add_zero]
  cases tokenizeFrom rest pos with
  | ok ts => rfl
  | error e => rfl

theorem chunkA_toB (s : List Char) (ts : List Tok) (h : LexChunkA s ts) :
    LexChunkB s ts :=
  fun rest pos _ => h rest pos

theorem exceptMap_map {α : Type} (r : Except PyErr (List α)) (f g : List α → List α) :
    (r.map f).map g = r.map (fun x => g (f x)) := by
  cases r with
  | ok v => rfl
  | error e => rfl

theorem chunkA_append (s1 s2 : List Char) (ts1 ts2 : List Tok)
    (h1 : LexChunkA s1 ts1) (h2 : LexChunkA s2 ts2) :
    LexChunkA (s1 ++ s2) (ts1 ++ ts2) := by
  intro rest pos
  rw [List.append_assoc, h1 (s2 ++ rest) pos, h2 rest (pos + s1.length), exceptMap_map]
  rw [List.length_append, ← Nat.add_assoc]
  cases tokenizeFrom rest (pos + s1.length + s2.length) with
  | ok ts => simp
  | error e => rfl

theorem chunkA_append_B (s1 s2 : List Char) (ts1 ts2 : List Tok)
    (h1 : LexChunkA s1 ts1) (h2 : LexChunkB s2 ts2) :
    LexChunkB (s1 ++ s2) (ts1 ++ ts2) := by
  intro rest pos hrest
  rw [List.append_assoc, h1 (s2 ++ rest) pos, h2 rest (pos + s1.length) hrest, exceptMap_map]
  rw [List.length_append, ← Nat.add_assoc]
  cases tokenizeFrom rest (pos + s1.length + s2.length) with
  | ok ts => simp
  | error e => rfl

theorem takeWhile_append_nil_of_head (s2 rest : List Char) (hne : s2 ≠ [])
    (h : s2.takeWhile isBareChar = []) :
    (s2 ++ rest).takeWhile isBareChar = [] := by
  cases s2 with
  | nil => exact absurd rfl hne
  | cons c cs =>
    by_cases hc : isBareChar c
    · rw [List.takeWhile_cons_of_pos hc] at h
      simp at h
    · exact List.takeWhile_cons_of_neg hc

theorem chunkB_append_A (s1 s2 : List Char) (ts1 ts2 : List Tok)
    (h1 : LexChunkB s1 ts1) (hne : s2 ≠ []) (hhead : s2.takeWhile isBareChar = [])
    (h2 : LexChunkA s2 ts2) :
    LexChunkA (s1 ++ s2) (ts1 ++ ts2) := by
  intro rest pos
  rw [List.append_assoc, h1 (s2 ++ rest) pos (takeWhile_append_nil_of_head s2 rest hne hhead),
    h2 rest (pos + s1.length), exceptMap_map]
  rw [List.length_append, ← Nat.add_assoc]
  cases tokenizeFrom rest (pos + s1.length + s2.length) with
  | ok ts => simp
  | error e => rfl

theorem chunkB_append_B (s1 s2 : List Char) (ts1 ts2 : List Tok)
    (h1 : LexChunkB s1 ts1) (hne : s2 ≠ []) (hhead : s2.takeWhile isBareChar = [])
    (h2 : LexChunkB s2 ts2) :
    LexChunkB (s1 ++ s2) (ts1 ++ ts2) := by
  intro rest pos hrest
  rw [List.append_assoc, h1 (s2 ++ rest) pos (takeWhile_append_nil_of_head s2 rest hne hhead),
    h2 rest (pos + s1.length) hrest, exceptMap_map]
  rw [List.length_append, ← Nat.add_assoc]
  cases tokenizeFrom rest (pos + s1.length + s2.length) with
  | ok ts => simp
  | error e => rfl

theorem tokenize_of_chunkA (s : List Char) (ts : List Tok) (h : LexChunkA s ts) :
    tokenize s = .ok ts := by
  have h0 := h [] 0
  rw [List.append_nil] at h0
  show tokenizeFrom s 0 = .ok ts
  rw [h0]
  show Except.ok (ts ++ []) = Except.ok ts
  rw [List.append_nil]

theorem chunkB_congr (s : List Char) (ts ts2 : List Tok) (h : ts = ts2)
    (hc : LexChunkB s ts) : LexChunkB s ts2 := h ▸ hc

theorem chunkA_congr (s : List Char) (ts ts2 : List Tok) (h : ts = ts2)
    (hc : LexChunkA s ts) : LexChunkA s ts2 := h ▸ hc

theorem rawSafe_decimal (c : RawNode) (h : rawSafe c = true) :
    isDecimalQ c.branchLength = true := by
  cases c with
  | mk l a bl cs =>
    simp only [rawSafe, Bool.and_eq_true] at h
    exact h.1.1.2

theorem rawSafe_noexp (c : RawNode) (h : rawSafe c = true) :
    usesExponent c.branchLength = false := by
  cases c with
  | mk l a bl cs =>
    simp only [rawSafe, Bool.and_eq_true] at h
    have := h.1.2
    simpa using this

theorem rawSafeList_mem (cs : List RawNode) (h : rawSafeList cs = true) :
    ∀ c ∈ cs, rawSafe c = true := by
  induction cs with
  | nil => intro c hc; cases hc
  | cons x xs ih =>
    simp only [rawSafeList, Bool.and_eq_true] at h
    intro c hc
    rcases List.mem_cons.mp hc with rfl | hmem
    · exact h.1
    · exact ih h.2 c hmem

theorem annotToksList_false_eq (xs : List (List Char × List Char)) (h : xs ≠ []) :
    annotToksList false xs = (.COMMA, none) :: annotToksList true xs := by
  cases xs with
  | nil => exact absurd rfl h
  | cons kv rest => rfl

theorem rawToksChildren_false_eq (cs : List RawNode) (h : cs ≠ []) :
    rawToksChildren false cs = (.COMMA, none) :: rawToksChildren true cs := by
  cases cs with
  | nil => exact absurd rfl h
  | cons c rest => rfl

theorem rawNewickChildren_false_eq (cs : List RawNode) (h : cs ≠ []) :
    rawNewickChildren false cs = ',' :: rawNewickChildren true cs := by
  cases cs with
  | nil => exact absurd rfl h
  | cons c rest => rfl

theorem takeWhile_bare_nonbare_head (c : Char) (s : List Char) (h : isBareChar c = false) :
    (c :: s).takeWhile isBareChar = [] :=
  List.takeWhile_cons_of_neg (by simp [h])

/-- One serialized annotation pair is an anywhere-composable chunk. -/
theorem chunkA_annotItem (kv : List Char × List Char)
    (hk : bareStr kv.1 = true) (hv : bareStr kv.2 = true) :
    LexChunkA (annotItem kv) [(.STRING, some kv.1), (.EQUALS, none), (.STRING, some kv.2)] := by
  have h1 : LexChunkA ('=' :: dqChar :: (kv.2 ++ [dqChar]))
      ([(.EQUALS, none)] ++ [(.STRING, some kv.2)]) :=
    chunkA_append ['='] (dqChar :: (kv.2 ++ [dqChar])) _ _ chunkA_equals (chunkA_dquoted kv.2 hv)
  have h2 : LexChunkA (kv.1 ++ '=' :: dqChar :: (kv.2 ++ [dqChar]))
      ([(.STRING, some kv.1)] ++ ([(.EQUALS, none)] ++ [(.STRING, some kv.2)])) :=
    chunkB_append_A kv.1 _ _ _ (chunkB_bare kv.1 hk) (by simp)
      (takeWhile_bare_nonbare_head '=' _ (by with_unfolding_all rfl)) h1
  exact h2

/-- The joined annotation pairs form an anywhere-composable chunk matching
`annotToksList`. -/
theorem chunkA_annotJoin : ∀ (a : List (List Char × List Char)), a ≠ [] →
    (∀ kv ∈ a, bareStr kv.1 = true ∧ bareStr kv.2 = true) →
    LexChunkA (joinComma (a.map annotItem)) (annotToksList true a) := by
  intro a
  induction a with
  | nil => intro h; exact absurd rfl h
  | cons kv rest ih =>
    intro _ hsafe
    have hkv := hsafe kv (List.mem_cons_self kv rest)
    cases rest with
    | nil =>
      show LexChunkA (annotItem kv) _
      refine chunkA_congr _ _ _ ?_ (chunkA_annotItem kv hkv.1 hkv.2)
      simp [annotToksList]
    | cons kv2 rest2 =>
      have hrec := ih (by simp) (fun x hx => hsafe x (List.mem_cons_of_mem kv hx))
      show LexChunkA (annotItem kv ++ ',' :: joinComma ((kv2 :: rest2).map annotItem)) _
      have hcomma : LexChunkA (',' :: joinComma ((kv2 :: rest2).map annotItem))
          ([(.COMMA, none)] ++ annotToksList true (kv2 :: rest2)) :=
        chunkA_append [','] _ _ _ chunkA_comma hrec
      refine chunkA_congr _ _ _ ?_
        (chunkA_append (annotItem kv) (',' :: joinComma ((kv2 :: rest2).map annotItem))
          _ _ (chunkA_annotItem kv hkv.1 hkv.2) hcomma)
      simp [annotToksList]

/-- The serialized annotation block is an anywhere-composable chunk. -/
theorem chunkA_annotBlock (a : List (List Char × List Char))
    (hsafe : ∀ kv ∈ a, bareStr kv.1 = true ∧ bareStr kv.2 = true) :
    LexChunkA (annotBlock a) (annotToksBlock a) := by
  cases ha : a with
  | nil =>
    show LexChunkA (annotBlock []) (annotToksBlock [])
    have h1 : annotBlock [] = [] := by simp [annotBlock]
    have h2 : annotToksBlock [] = [] := by simp [annotToksBlock]
    rw [h1, h2]
    exact chunkA_nil
  | cons kv rest =>
    have hjoin := chunkA_annotJoin (kv :: rest) (by simp) (ha ▸ hsafe)
    have hinner : LexChunkA (joinComma ((kv :: rest).map annotItem) ++ [']'])
        (annotToksList true (kv :: rest) ++ [(.CLOSEA, none)]) :=
      chunkA_append _ _ _ _ hjoin chunkA_closea
    have houter := chunkA_append ['[', '&'] _ _ _ chunkA_opena hinner
    have hshape : annotBlock (kv :: rest)
        = ['[', '&'] ++ (joinComma ((kv :: rest).map annotItem) ++ [']']) := by
      simp [annotBlock]
    have htoks : annotToksBlock (kv :: rest)
        = [(.OPENA, none)] ++ (annotToksList true (kv :: rest) ++ [(.CLOSEA, none)]) := by
      simp [annotToksBlock]
    rw [hshape, htoks]
    exact houter

/-- Serialized children (with separating commas) form a chunk composable
before non-bare continuations. -/
theorem chunkB_children : ∀ (cs : List RawNode),
    (∀ c ∈ cs, rawSafe c = true →
      LexChunkB (rawNewickBL c c.branchLength) (rawToksBL c c.branchLength)) →
    rawSafeList cs = true → cs ≠ [] →
    LexChunkB (rawNewickChildren true cs) (rawToksChildren true cs) := by
  intro cs
  induction cs with
  | nil => intro _ _ h; exact absurd rfl h
  | cons c rest ih =>
    intro hmem hsafe _
    simp only [rawSafeList, Bool.and_eq_true] at hsafe
    have hc := hmem c (List.mem_cons_self c rest) hsafe.1
    cases rest with
    | nil =>
      have hshape : rawNewickChildren true [c] = rawNewickBL c c.branchLength := by
        simp [rawNewickChildren]
      have htoks : rawToksChildren true [c] = rawToksBL c c.branchLength := by
        simp [rawToksChildren]
      show LexChunkB (rawNewickChildren true [c]) (rawToksChildren true [c])
      rw [hshape, htoks]
      exact hc
    | cons c2 rest2 =>
      have hrec := ih (fun x hx => hmem x (List.mem_cons_of_mem c hx)) hsafe.2 (by simp)
      have hcommarec : LexChunkB (',' :: rawNewickChildren true (c2 :: rest2))
          ([(.COMMA, none)] ++ rawToksChildren true (c2 :: rest2)) :=
        chunkA_append_B [','] _ _ _ chunkA_comma hrec
      have hwhole := chunkB_append_B (rawNewickBL c c.branchLength)
        (',' :: rawNewickChildren true (c2 :: rest2)) _ _ hc (by simp)
        (takeWhile_bare_nonbare_head ',' _ (by with_unfolding_all rfl)) hcommarec
      have hshape : rawNewickChildren true (c :: c2 :: rest2)
          = rawNewickBL c c.branchLength ++ (',' :: rawNewickChildren true (c2 :: rest2)) := by
        show ([] : List Char) ++ rawNewickBL c c.branchLength
            ++ rawNewickChildren false (c2 :: rest2) = _
        rw [rawNewickChildren_false_eq _ (by simp)]
        simp
      have htoks : rawToksChildren true (c :: c2 :: rest2)
          = rawToksBL c c.branchLength
            ++ ([(.COMMA, none)] ++ rawToksChildren true (c2 :: rest2)) := by
        show ([] : List Tok) ++ rawToksBL c c.branchLength
            ++ rawToksChildren false (c2 :: rest2) = _
        rw [rawToksChildren_false_eq _ (by simp)]
        simp
      show LexChunkB (rawNewickChildren true (c :: c2 :: rest2))
        (rawToksChildren true (c :: c2 :: rest2))
      rw [hshape, htoks]
      exact hwhole

/-- Shape of the serialized text of one node. -/
theorem rawNewickBL_shape (l : Option (List Char)) (a : List (List Char × List Char))
    (bl blv : ℚ) (cs : List RawNode) :
    rawNewickBL (.mk l a bl cs) blv
      = (if cs.isEmpty then ([] : List Char)
         else '(' :: (rawNewickChildren true cs ++ [')']))
        ++ labelPart l ++ annotBlock a ++ ':' :: formatFloat blv := by
  cases cs <;> rfl

/-- Shape of the expected tokens of one node. -/
theorem rawToksBL_shape (l : Option (List Char)) (a : List (List Char × List Char))
    (bl blv : ℚ) (cs : List RawNode) :
    rawToksBL (.mk l a bl cs) blv
      = (if cs.isEmpty then ([] : List Tok)
         else (.LPAREN, none) :: (rawToksChildren true cs ++ [(.RPAREN, none)]))
        ++ labelToks l ++ annotToksBlock a
        ++ ([(.COLON, none)] ++ [(.STRING, some (formatFloat blv))]) := by
  cases cs <;> rfl

/-- The full serialization of a safe raw node tokenizes to its expected
token sequence before any non-bare continuation. -/
theorem chunkB_rawNewick : ∀ (raw : RawNode) (blv : ℚ), isDecimalQ blv = true →
    usesExponent blv = false →
    rawSafe raw = true → LexChunkB (rawNewickBL raw blv) (rawToksBL raw blv) := by
  refine RawNode.rawIndOn (fun raw => ∀ blv, isDecimalQ blv = true →
    usesExponent blv = false → rawSafe raw = true →
    LexChunkB (rawNewickBL raw blv) (rawToksBL raw blv)) ?_
  intro l a bl cs ih blv hblv hexp hsafe
  simp only [rawSafe, Bool.and_eq_true] at hsafe
  obtain ⟨⟨⟨⟨⟨hlab, hann⟩, hnodup⟩, hdec⟩, hnoexp⟩, hcs⟩ := hsafe
  have hannSafe : ∀ kv ∈ a, bareStr kv.1 = true ∧ bareStr kv.2 = true := by
    intro kv hkv
    have := List.all_eq_true.mp hann kv hkv
    simp only [Bool.and_eq_true] at this
    exact this
  have hpart4 : LexChunkB (':' :: formatFloat blv)
      ([(.COLON, none)] ++ [(.STRING, some (formatFloat blv))]) :=
    chunkA_append_B [':'] (formatFloat blv) _ _ chunkA_colon
      (chunkB_bare (formatFloat blv) (formatFloat_bare blv hblv hexp))
  have hpart3 : LexChunkA (annotBlock a) (annotToksBlock a) := chunkA_annotBlock a hannSafe
  have hpart2 : LexChunkB (labelPart l) (labelToks l) := by
    cases l with
    | some s => exact chunkB_bare s hlab
    | none => exact chunkA_toB _ _ chunkA_nil
  have hpart1 : LexChunkA
      (if cs.isEmpty then ([] : List Char)
       else '(' :: (rawNewickChildren true cs ++ [')']))
      (if cs.isEmpty then ([] : List Tok)
       else (.LPAREN, none) :: (rawToksChildren true cs ++ [(.RPAREN, none)])) := by
    cases cs with
    | nil => simpa using chunkA_nil
    | cons c rest =>
      simp only [List.isEmpty_cons, Bool.false_eq_true, if_neg, not_false_eq_true]
      have hchildren := chunkB_children (c :: rest)
        (fun x hx hsx => ih x hx x.branchLength (rawSafe_decimal x hsx)
          (rawSafe_noexp x hsx) hsx) hcs (by simp)
      have hinner : LexChunkA (rawNewickChildren true (c :: rest) ++ [')'])
          (rawToksChildren true (c :: rest) ++ [(.RPAREN, none)]) :=
        chunkB_append_A _ _ _ _ hchildren (by simp)
          (takeWhile_bare_nonbare_head ')' _ (by with_unfolding_all rfl)) chunkA_rparen
      exact chunkA_append ['('] _ _ _ chunkA_lparen hinner
  have h12 := chunkA_append_B _ _ _ _ hpart1 hpart2
  have h123 : LexChunkB
      ((if cs.isEmpty then ([] : List Char)
        else '(' :: (rawNewickChildren true cs ++ [')'])) ++ labelPart l ++ annotBlock a)
      ((if cs.isEmpty then ([] : List Tok)
        else (.LPAREN, none) :: (rawToksChildren true cs ++ [(.RPAREN, none)]))
        ++ labelToks l ++ annotToksBlock a) := by
    cases ha : a with
    | nil =>
      have hb : annotBlock ([] : List (List Char × List Char)) = [] := by simp [annotBlock]
      have ht : annotToksBlock ([] : List (List Char × List Char)) = [] := by
        simp [annotToksBlock]
      rw [hb, ht, List.append_nil, List.append_nil]
      exact h12
    | cons kv rest =>
      refine chunkB_append_B _ (annotBlock (kv :: rest)) _ _ h12 ?_ ?_
        (chunkA_toB _ _ (ha ▸ hpart3))
      · simp [annotBlock]
      · have hx : annotBlock (kv :: rest)
            = '[' :: ('&' :: (joinComma ((kv :: rest).map annotItem) ++ [']'])) := by
          simp [annotBlock]
        rw [hx]
        exact takeWhile_bare_nonbare_head '[' _ (by with_unfolding_all rfl)
  have hfinal := chunkB_append_B _ (':' :: formatFloat blv) _ _ h123 (by simp)
    (takeWhile_bare_nonbare_head ':' _ (by with_unfolding_all rfl)) hpart4
  show LexChunkB (rawNewickBL (.mk l a bl cs) blv) (rawToksBL (.mk l a bl cs) blv)
  rw [rawNewickBL_shape, rawToksBL_shape]
  exact hfinal

/-- Unfolding lemma: one serialized child in the children render loop. -/
theorem newickChildren_cons (ph : ℚ) (first : Bool) (x : Node) (xs : List Node) :
    newickChildren ph first (x :: xs)
      = (if first then ([] : List Char) else [','])
        ++ (newickOf x (ph - x.height) ++ newickChildren ph false xs) := by
  cases first <;> rfl

/-- Unfolding lemma: one raw child in the raw render loop. -/
theorem rawNewickChildren_cons (first : Bool) (c : RawNode) (rest : List RawNode) :
    rawNewickChildren first (c :: rest)
      = (if first then ([] : List Char) else [','])
        ++ (rawNewickBL c c.branchLength ++ rawNewickChildren false rest) := by
  cases first <;> rfl

/-- The time/height pipeline maps over children lists pointwise. -/
theorem shcl_cons (m t : ℚ) (c : RawNode) (rest : List RawNode) :
    setHeightsList m (computeTimesList t (c :: rest))
      = setHeights m (computeTimes t c) :: setHeightsList m (computeTimesList t rest) := by
  simp

/-- The pipeline on one constructor. -/
theorem setHeights_computeTimes_mk (m o : ℚ) (l : Option (List Char))
    (a : List (List Char × List Char)) (bl : ℚ) (cs : List RawNode) :
    setHeights m (computeTimes o (.mk l a bl cs))
      = .mk l a bl (o + bl) (m - (o + bl)) (setHeightsList m (computeTimesList (o + bl) cs)) := rfl

/-- Shape of the serializer on one node. -/
theorem newickOf_shape (l : Option (List Char)) (a : List (List Char × List Char))
    (b t h blv : ℚ) (cs : List Node) :
    newickOf (.mk l a b t h cs) blv
      = (if cs.isEmpty then ([] : List Char)
         else '(' :: (newickChildren h true cs ++ [')']))
        ++ labelPart l ++ annotBlock a ++ ':' :: formatFloat blv := by
  cases cs <;> rfl

/-- The height differences written while serializing the finalized tree of
a raw node are exactly the raw branch lengths, so `newickOf` reproduces the
raw serialization. -/
theorem newickOf_final : ∀ (raw : RawNode) (m o blv : ℚ),
    newickOf (setHeights m (computeTimes o raw)) blv = rawNewickBL raw blv := by
  refine RawNode.rawIndOn (fun raw => ∀ m o blv,
    newickOf (setHeights m (computeTimes o raw)) blv = rawNewickBL raw blv) ?_
  intro l a bl cs ih m o blv
  have hch : ∀ (cs2 : List RawNode), (∀ c ∈ cs2, ∀ m2 o2 blv2,
      newickOf (setHeights m2 (computeTimes o2 c)) blv2 = rawNewickBL c blv2) →
      ∀ (first : Bool) (t : ℚ),
      newickChildren (m - t) first (setHeightsList m (computeTimesList t cs2))
        = rawNewickChildren first cs2 := by
    intro cs2
    induction cs2 with
    | nil => intro _ first t; rfl
    | cons c rest ihr =>
      intro hall first t
      rw [shcl_cons m t c rest, newickChildren_cons, rawNewickChildren_cons,
        setHeights_height, computeTimes_time]
      have harg : (m - t) - (m - (t + c.branchLength)) = c.branchLength := by ring
      rw [harg, hall c (List.mem_cons_self c rest) m t c.branchLength,
        ihr (fun x hx => hall x (List.mem_cons_of_mem c hx)) false t]
  rw [setHeights_computeTimes_mk, newickOf_shape, rawNewickBL_shape]
  cases cs with
  | nil => rfl
  | cons c rest =>
    rw [hch (c :: rest) ih true (o + bl)]
    have hne : (setHeightsList m (computeTimesList (o + bl) (c :: rest))).isEmpty = false := by
      simp
    rw [hne]
    simp only [List.isEmpty_cons, Bool.false_eq_true, if_false]

/-- `getNewick` on the finalized tree of a raw node emits the raw
serialization: the root writes `origin − height = branchLength` and every
child writes its own branch length. -/
theorem getNewick_finalize (raw : RawNode) :
    getNewick (finalize raw) = rawNewick raw := by
  show newickOf (setHeights (treeMaxTime (computeTimes 0 raw)) (computeTimes 0 raw))
      (((setHeights (treeMaxTime (computeTimes 0 raw)) (computeTimes 0 raw)).height
        + (setHeights (treeMaxTime (computeTimes 0 raw)) (computeTimes 0 raw)).branchLength)
       - (setHeights (treeMaxTime (computeTimes 0 raw)) (computeTimes 0 raw)).height)
      = rawNewick raw
  have harg : ((setHeights (treeMaxTime (computeTimes 0 raw)) (computeTimes 0 raw)).height
        + (setHeights (treeMaxTime (computeTimes 0 raw)) (computeTimes 0 raw)).branchLength)
       - (setHeights (treeMaxTime (computeTimes 0 raw)) (computeTimes 0 raw)).height
      = raw.branchLength := by
    rw [setHeights_branchLength, computeTimes_branchLength]
    ring
  rw [harg]
  exact newickOf_final raw _ 0 raw.branchLength

/-- Unfolding lemma: node-safety of a children list. -/
theorem nodeSafeList_cons (x : Node) (xs : List Node) :
    nodeSafeList (x :: xs) = (nodeSafe x && nodeSafeList xs) := rfl

/-- Unfolding lemma: raw-safety of a children list. -/
theorem rawSafeList_cons (c : RawNode) (cs : List RawNode) :
    rawSafeList (c :: cs) = (rawSafe c && rawSafeList cs) := rfl

/-- Shape of node-safety on one constructor. -/
theorem nodeSafe_mk (l : Option (List Char)) (a : List (List Char × List Char))
    (b t h : ℚ) (cs : List Node) :
    nodeSafe (.mk l a b t h cs)
      = ((match l with | some s => bareStr s | none => true)
        && a.all (fun kv => bareStr kv.1 && bareStr kv.2)
        && decide ((a.map Prod.fst).Nodup)
        && isDecimalQ b
        && !usesExponent b
        && nodeSafeList cs) := rfl

/-- Shape of raw-safety on one constructor. -/
theorem rawSafe_mk (l : Option (List Char)) (a : List (List Char × List Char))
    (b : ℚ) (cs : List RawNode) :
    rawSafe (.mk l a b cs)
      = ((match l with | some s => bareStr s | none => true)
        && a.all (fun kv => bareStr kv.1 && bareStr kv.2)
        && decide ((a.map Prod.fst).Nodup)
        && isDecimalQ b
        && !usesExponent b
        && rawSafeList cs) := rfl

/-- Safety of a finalized node is exactly safety of the raw node it came
from: times and heights play no part in the condition. -/
theorem nodeSafe_final : ∀ (raw : RawNode) (m o : ℚ),
    nodeSafe (setHeights m (computeTimes o raw)) = rawSafe raw := by
  refine RawNode.rawIndOn (fun raw => ∀ m o,
    nodeSafe (setHeights m (computeTimes o raw)) = rawSafe raw) ?_
  intro l a bl cs ih m o
  have hls : ∀ (cs2 : List RawNode), (∀ c ∈ cs2, ∀ m2 o2,
      nodeSafe (setHeights m2 (computeTimes o2 c)) = rawSafe c) →
      ∀ t, nodeSafeList (setHeightsList m (computeTimesList t cs2)) = rawSafeList cs2 := by
    intro cs2
    induction cs2 with
    | nil => intro _ t; rfl
    | cons c rest ihr =>
      intro hall t
      rw [shcl_cons m t c rest, nodeSafeList_cons, rawSafeList_cons,
        hall c (List.mem_cons_self c rest) m t,
        ihr (fun x hx => hall x (List.mem_cons_of_mem c hx)) t]
  rw [setHeights_computeTimes_mk, nodeSafe_mk, rawSafe_mk, hls cs ih (o + bl)]

/-- The full tokenization of a safe serialized raw node followed by a
semicolon. -/
theorem tokenize_rawNewick (raw : RawNode) (h : rawSafe raw = true) :
    tokenize (rawNewick raw ++ [';']) = .ok (rawToks raw ++ [(.SEMI, none)]) :=
  tokenize_of_chunkA _ _
    (chunkB_append_A _ [';'] _ _
      (chunkB_rawNewick raw raw.branchLength (rawSafe_decimal raw h)
        (rawSafe_noexp raw h) h)
      (by simp)
      (takeWhile_bare_nonbare_head ';' [] (by with_unfolding_all rfl))
      chunkA_semi)

/-- Reading the token under a cursor whose suffix is known. -/
theorem get_of_drop (toks : List Tok) (i : ℕ) (t : Tok) (l : List Tok)
    (h : toks.drop i = t :: l) : toks.get? i = some t := by
  have h2 := List.get?_drop toks i 0
  rw [h] at h2
  simpa using h2.symm

/-- Advancing the cursor past the token just read. -/
theorem drop_succ_of_drop (toks : List Tok) (i : ℕ) (t : Tok) (l : List Tok)
    (h : toks.drop i = t :: l) : toks.drop (i + 1) = l := by
  have h2 := List.drop_drop 1 i toks
  rw [h] at h2
  simp only [List.drop_succ_cons, List.drop_zero] at h2
  exact h2.symm

/-- Advancing the cursor past a consumed block of tokens. -/
theorem drop_append_of_drop (toks : List Tok) (i : ℕ) (l1 l2 : List Tok)
    (h : toks.drop i = l1 ++ l2) : toks.drop (i + l1.length) = l2 := by
  have h2 := List.drop_drop l1.length i toks
  rw [h, List.drop_left] at h2
  exact h2.symm

/-- `acceptToken` on a matching token: consume it and advance. -/
theorem acceptToken_hit (toks : List Tok) (i : ℕ) (k : TokKind) (v : Option (List Char))
    (l : List Tok) (b : Bool) (h : toks.drop i = (k, v) :: l) :
    acceptToken ⟨toks, i⟩ k b = .ok (true, ⟨toks, i + 1⟩) := by
  have hg := get_of_drop toks i _ l h
  show (match toks.get? i with
      | none => (.error .indexError : Except PyErr (Bool × ParseContext))
      | some t =>
        if t.1 = k then .ok (true, ⟨toks, i + 1⟩)
        else if b then .error (.nameError nameErrorMsg)
        else .ok (false, ⟨toks, i⟩)) = .ok (true, ⟨toks, i + 1⟩)
  rw [hg]
  simp

/-- A non-mandatory `acceptToken` on a non-matching token: report `False`
and stay in place. -/
theorem acceptToken_miss (toks : List Tok) (i : ℕ) (k k2 : TokKind) (v : Option (List Char))
    (l : List Tok) (h : toks.drop i = (k, v) :: l) (hne : k ≠ k2) :
    acceptToken ⟨toks, i⟩ k2 false = .ok (false, ⟨toks, i⟩) := by
  have hg := get_of_drop toks i _ l h
  show (match toks.get? i with
      | none => (.error .indexError : Except PyErr (Bool × ParseContext))
      | some t =>
        if t.1 = k2 then .ok (true, ⟨toks, i + 1⟩)
        else if false then .error (.nameError nameErrorMsg)
        else .ok (false, ⟨toks, i⟩)) = .ok (false, ⟨toks, i⟩)
  rw [hg]
  simp [hne]

/-- `getLastValue` right after a consumed token reads that token's value. -/
theorem getLastValue_at (toks : List Tok) (i : ℕ) (k : TokKind) (v : Option (List Char))
    (l : List Tok) (h : toks.drop i = (k, v) :: l) :
    getLastValue ⟨toks, i + 1⟩ = v := by
  have hg := get_of_drop toks i _ l h
  show (match toks.get? (i + 1 - 1) with
      | some t => t.2
      | none => none) = v
  rw [show i + 1 - 1 = i from rfl, hg]

/-- `ruleC` on a serialized `key = "value"` token triple. -/
theorem ruleC_toks (toks : List Tok) (i : ℕ) (k v : List Char) (rest : List Tok)
    (h : toks.drop i = (.STRING, some k) :: (.EQUALS, none) :: (.STRING, some v) :: rest) :
    ruleC ⟨toks, i⟩ = .ok ((k, v), ⟨toks, i + 3⟩) := by
  have hd1 := drop_succ_of_drop toks i _ _ h
  have hd2 := drop_succ_of_drop toks (i + 1) _ _ hd1
  have h1 := acceptToken_hit toks i .STRING (some k) _ true h
  have h2 := acceptToken_hit toks (i + 1) .EQUALS none _ true hd1
  have h3 := acceptToken_hit toks (i + 2) .STRING (some v) _ true hd2
  have hv1 := getLastValue_at toks i .STRING (some k) _ h
  have hv3 := getLastValue_at toks (i + 2) .STRING (some v) _ hd2
  unfold ruleC
  rw [h1]
  simp only [exOk_bind]
  rw [hv1, h2]
  simp only [exOk_bind]
  rw [h3]
  simp only [exOk_bind]
  rw [hv3]
  rfl

/-- `ruleL` on a present label token. -/
theorem ruleL_some (toks : List Tok) (i : ℕ) (s : List Char) (rest : List Tok)
    (h : toks.drop i = (.STRING, some s) :: rest) :
    ruleL ⟨toks, i⟩ = .ok (some s, ⟨toks, i + 1⟩) := by
  have h1 := acceptToken_hit toks i .STRING (some s) _ false h
  have hv := getLastValue_at toks i .STRING (some s) _ h
  unfold ruleL
  rw [h1]
  simp only [exOk_bind]
  rw [if_pos True.intro, hv]

/-- `ruleL` when the upcoming token is not a STRING: no label. -/
theorem ruleL_none (toks : List Tok) (i : ℕ) (k : TokKind) (v : Option (List Char))
    (rest : List Tok) (h : toks.drop i = (k, v) :: rest) (hk : k ≠ .STRING) :
    ruleL ⟨toks, i⟩ = .ok (none, ⟨toks, i⟩) := by
  have h1 := acceptToken_miss toks i k .STRING v _ h hk
  unfold ruleL
  rw [h1]
  simp only [exOk_bind]
  rw [if_neg (by simp)]

/-- `ruleB` on a serialized `: value` pair whose value is a formatted
decimal: `float()` recovers the exact rational. -/
theorem ruleB_toks (toks : List Tok) (i : ℕ) (blv : ℚ) (rest : List Tok)
    (h : toks.drop i = (.COLON, none) :: (.STRING, some (formatFloat blv)) :: rest)
    (hdec : isDecimalQ blv = true) (hexp : usesExponent blv = false) :
    ruleB ⟨toks, i⟩ = .ok (blv, ⟨toks, i + 1 + 1⟩) := by
  have hd1 := drop_succ_of_drop toks i _ _ h
  have h1 := acceptToken_hit toks i .COLON none _ false h
  have h2 := acceptToken_hit toks (i + 1) .STRING (some (formatFloat blv)) _ true hd1
  have hv := getLastValue_at toks (i + 1) .STRING (some (formatFloat blv)) _ hd1
  unfold ruleB
  rw [h1]
  simp only [exOk_bind]
  rw [if_pos True.intro, h2]
  simp only [exOk_bind]
  rw [hv]
  show (if isInfNanLit (formatFloat blv) then
        (.error (.nonfiniteFloat (formatFloat blv)) : Except PyErr (ℚ × ParseContext))
      else match pyFloat (formatFloat blv) with
      | some q => .ok (q, ⟨toks, i + 1 + 1⟩)
      | none => .error (.valueError (floatErrMsg (formatFloat blv)))) = _
  rw [formatFloat_eq_pos blv hexp,
    if_neg (by rw [isInfNanLit_formatFloatPos blv hdec]; simp),
    pyFloat_formatFloatPos blv hdec]

/-- Unfolding lemma: one step of the annotation-continuation rule. -/
theorem ruleD_succ (fuel : ℕ) (ann : List (List Char × List Char)) (ctx : ParseContext) :
    ruleD (fuel + 1) ann ctx = (do
      let (b, ctx2) ← acceptToken ctx .COMMA false
      if b then do
        let ((k, v), ctx3) ← ruleC ctx2
        ruleD fuel (dictSet ann k v) ctx3
      else .ok (ann, ctx2)) := rfl

/-- Assigning a key not yet in a Python dict appends the pair. -/
theorem dictSet_fresh : ∀ (m : List (List Char × List Char)) (k v : List Char),
    k ∉ m.map Prod.fst → dictSet m k v = m ++ [(k, v)] := by
  intro m
  induction m with
  | nil => intro k v _; rfl
  | cons kv rest ih =>
    intro k v h
    obtain ⟨k0, v0⟩ := kv
    simp only [List.map_cons, List.mem_cons, not_or] at h
    show (if k0 = k then (k0, v) :: rest else (k0, v0) :: dictSet rest k v)
      = (k0, v0) :: (rest ++ [(k, v)])
    rw [if_neg (fun he => h.1 he.symm), ih k v h.2]

/-- Folding fresh distinct-key assignments into a dict appends them in
order. -/
theorem foldl_dictSet_append : ∀ (xs ann : List (List Char × List Char)),
    (∀ p ∈ xs, p.1 ∉ ann.map Prod.fst) → (xs.map Prod.fst).Nodup →
    xs.foldl (fun m p => dictSet m p.1 p.2) ann = ann ++ xs := by
  intro xs
  induction xs with
  | nil => intro ann _ _; simp
  | cons kv rest ih =>
    intro ann hfresh hnd
    simp only [List.foldl_cons]
    have hhead : kv.1 ∉ rest.map Prod.fst :=
      (List.nodup_cons.mp (by simpa using hnd)).1
    have hfr : ∀ p ∈ rest, p.1 ∉ (ann ++ [(kv.1, kv.2)]).map Prod.fst := by
      intro p hp
      simp only [List.map_append, List.map_cons, List.map_nil, List.mem_append,
        List.mem_singleton, not_or]
      refine ⟨hfresh p (List.mem_cons_of_mem kv hp), ?_⟩
      intro he
      exact hhead (he ▸ List.mem_map_of_mem Prod.fst hp)
    have hnd2 : (rest.map Prod.fst).Nodup := (List.nodup_cons.mp (by simpa using hnd)).2
    rw [dictSet_fresh ann kv.1 kv.2 (hfresh kv (List.mem_cons_self kv rest)),
      ih (ann ++ [(kv.1, kv.2)]) hfr hnd2]
    simp

/-- Unfolding lemma: the expected tokens of one annotation continuation. -/
theorem annotToksList_false_cons (kv : List Char × List Char)
    (xs : List (List Char × List Char)) :
    annotToksList false (kv :: xs)
      = (.COMMA, none) :: (.STRING, some kv.1) :: (.EQUALS, none) :: (.STRING, some kv.2)
        :: annotToksList false xs := rfl

/-- `ruleD` consumes exactly the serialized annotation continuations,
storing each pair, and stops at the first non-comma token. -/
theorem ruleD_toks : ∀ (xs : List (List Char × List Char)) (fuel : ℕ)
    (ann : List (List Char × List Char)) (toks : List Tok) (i : ℕ)
    (k : TokKind) (v : Option (List Char)) (rest : List Tok),
    toks.drop i = annotToksList false xs ++ (k, v) :: rest → k ≠ .COMMA →
    xs.length < fuel →
    ruleD fuel ann ⟨toks, i⟩
      = .ok (xs.foldl (fun m p => dictSet m p.1 p.2) ann,
             ⟨toks, i + (annotToksList false xs).length⟩) := by
  intro xs
  induction xs with
  | nil =>
    intro fuel ann toks i k v rest h hk hf
    cases fuel with
    | zero => omega
    | succ f =>
      have hm := acceptToken_miss toks i k .COMMA v rest (by simpa using h) hk
      rw [ruleD_succ, hm]
      simp only [exOk_bind]
      rw [if_neg (by simp)]
      rfl
  | cons kv xs ih =>
    intro fuel ann toks i k v rest h hk hf
    cases fuel with
    | zero => simp at hf
    | succ f =>
      rw [annotToksList_false_cons, List.cons_append, List.cons_append,
        List.cons_append, List.cons_append] at h
      have hd1 := drop_succ_of_drop toks i _ _ h
      have hacc := acceptToken_hit toks i .COMMA none _ false h
      have hC := ruleC_toks toks (i + 1) kv.1 kv.2 _ hd1
      have hd2 := drop_succ_of_drop toks (i + 1) _ _ hd1
      have hd3 := drop_succ_of_drop toks (i + 1 + 1) _ _ hd2
      have hd4 := drop_succ_of_drop toks (i + 1 + 1 + 1) _ _ hd3
      have he : i + 1 + 1 + 1 + 1 = i + 1 + 3 := by omega
      rw [he] at hd4
      have hrec := ih f (dictSet ann kv.1 kv.2) toks (i + 1 + 3) k v rest hd4 hk
        (by simp only [List.length_cons] at hf; omega)
      rw [ruleD_succ, hacc]
      simp only [exOk_bind]
      rw [if_pos True.intro, hC]
      simp only [exOk_bind]
      rw [hrec]
      have he2 : i + 1 + 3 + (annotToksList false xs).length
          = i + (annotToksList false (kv :: xs)).length := by
        rw [annotToksList_false_cons]
        simp only [List.length_cons]
        omega
      rw [he2]
      simp only [List.foldl_cons]

/-- Unfolding lemma: the token block of a nonempty annotation list. -/
theorem annotToksBlock_cons (kv : List Char × List Char)
    (xs : List (List Char × List Char)) :
    annotToksBlock (kv :: xs)
      = (.OPENA, none) :: (.STRING, some kv.1) :: (.EQUALS, none) :: (.STRING, some kv.2)
        :: (annotToksList false xs ++ [(.CLOSEA, none)]) := rfl

/-- `ruleA` recovers exactly the serialized annotation list (keys distinct,
stops at the colon that always follows). -/
theorem ruleA_toks (a : List (List Char × List Char)) (fuel : ℕ) (toks : List Tok)
    (i : ℕ) (rest : List Tok)
    (h : toks.drop i = annotToksBlock a ++ (.COLON, none) :: rest)
    (hnd : (a.map Prod.fst).Nodup) (hf : a.length ≤ fuel) :
    ruleA fuel ⟨toks, i⟩ = .ok (a, ⟨toks, i + (annotToksBlock a).length⟩) := by
  cases a with
  | nil =>
    have hb : annotToksBlock ([] : List (List Char × List Char)) = [] := rfl
    rw [hb, List.nil_append] at h
    have hm := acceptToken_miss toks i .COLON .OPENA none rest h (by decide)
    unfold ruleA
    rw [hm]
    simp only [exOk_bind]
    rw [if_neg (by simp)]
    rfl
  | cons kv xs =>
    rw [annotToksBlock_cons, List.cons_append, List.cons_append, List.cons_append,
      List.cons_append, List.append_assoc, List.singleton_append] at h
    have hd1 := drop_succ_of_drop toks i _ _ h
    have hacc := acceptToken_hit toks i .OPENA none _ false h
    have hC := ruleC_toks toks (i + 1) kv.1 kv.2 _ hd1
    have hd2 := drop_succ_of_drop toks (i + 1) _ _ hd1
    have hd3 := drop_succ_of_drop toks (i + 1 + 1) _ _ hd2
    have hd4 := drop_succ_of_drop toks (i + 1 + 1 + 1) _ _ hd3
    have he : i + 1 + 1 + 1 + 1 = i + 1 + 3 := by omega
    rw [he] at hd4
    have hD := ruleD_toks xs fuel (dictSet [] kv.1 kv.2) toks (i + 1 + 3) .CLOSEA none
      ((.COLON, none) :: rest) hd4 (by decide)
      (by simp only [List.length_cons] at hf; omega)
    have hd5 := drop_append_of_drop toks (i + 1 + 3) _ _ hd4
    have haccC := acceptToken_hit toks (i + 1 + 3 + (annotToksList false xs).length)
      .CLOSEA none _ true hd5
    have hhead : kv.1 ∉ xs.map Prod.fst := (List.nodup_cons.mp (by simpa using hnd)).1
    have hnd2 : (xs.map Prod.fst).Nodup := (List.nodup_cons.mp (by simpa using hnd)).2
    have hfold : xs.foldl (fun m p => dictSet m p.1 p.2) (dictSet [] kv.1 kv.2) = kv :: xs := by
      have h0 : dictSet [] kv.1 kv.2 = [(kv.1, kv.2)] := rfl
      have hfr : ∀ p ∈ xs, p.1 ∉ ([(kv.1, kv.2)] : List (List Char × List Char)).map Prod.fst := by
        intro p hp
        simp only [List.map_cons, List.map_nil, List.mem_singleton]
        intro he2
        exact hhead (he2 ▸ List.mem_map_of_mem Prod.fst hp)
      rw [h0, foldl_dictSet_append xs [(kv.1, kv.2)] hfr hnd2]
      simp
    unfold ruleA
    rw [hacc]
    simp only [exOk_bind]
    rw [if_pos True.intro, hC]
    simp only [exOk_bind]
    rw [hD]
    simp only [exOk_bind]
    rw [haccC]
    simp only [exOk_bind]
    rw [hfold]
    have he2 : i + 1 + 3 + (annotToksList false xs).length + 1
        = i + (annotToksBlock (kv :: xs)).length := by
      rw [annotToksBlock_cons]
      simp only [List.length_cons, List.length_append, List.length_nil]
      omega
    rw [he2]

/-- Unfolding lemma: one step of rule `N`. -/
theorem ruleN_succ (fuel : ℕ) (ctx : ParseContext) :
    ruleN (fuel + 1) ctx = (do
      let (children, ctx2) ← ruleS fuel ctx
      let (label, ctx3) ← ruleL ctx2
      let (annots, ctx4) ← ruleA fuel ctx3
      let (bl, ctx5) ← ruleB ctx4
      .ok (.mk label annots bl children, ctx5)) := rfl

/-- Unfolding lemma: one step of rule `S`. -/
theorem ruleS_succ (fuel : ℕ) (ctx : ParseContext) :
    ruleS (fuel + 1) ctx = (do
      let (b, ctx2) ← acceptToken ctx .LPAREN false
      if b then do
        let (first, ctx3) ← ruleN fuel ctx2
        let (rest, ctx4) ← ruleQ fuel ctx3
        let (_, ctx5) ← acceptToken ctx4 .RPAREN true
        .ok (first :: rest, ctx5)
      else .ok ([], ctx2)) := rfl

/-- Unfolding lemma: one step of rule `Q`. -/
theorem ruleQ_succ (fuel : ℕ) (ctx : ParseContext) :
    ruleQ (fuel + 1) ctx = (do
      let (b, ctx2) ← acceptToken ctx .COMMA false
      if b then do
        let (n, ctx3) ← ruleN fuel ctx2
        let (rest, ctx4) ← ruleQ fuel ctx3
        .ok (n :: rest, ctx4)
      else .ok ([], ctx2)) := rfl

/-- `ruleS` produces no children when the upcoming token is not `(`. -/
theorem ruleS_nil (fuel : ℕ) (hf : 1 ≤ fuel) (toks : List Tok) (i : ℕ) (k : TokKind)
    (v : Option (List Char)) (tl : List Tok) (h : toks.drop i = (k, v) :: tl)
    (hk : k ≠ .LPAREN) : ruleS fuel ⟨toks, i⟩ = .ok ([], ⟨toks, i⟩) := by
  cases fuel with
  | zero => omega
  | succ f =>
    have hm := acceptToken_miss toks i k .LPAREN v tl h hk
    rw [ruleS_succ, hm]
    simp only [exOk_bind]
    rw [if_neg (by simp)]

/-- The serialized text after an (absent) label starts with a token that is
neither a STRING nor an `(`. -/
theorem exists_head_AC (a : List (List Char × List Char)) (tail : List Tok) :
    ∃ k v tl, annotToksBlock a ++ ((.COLON, none) :: tail) = (k, v) :: tl
      ∧ k ≠ .STRING ∧ k ≠ .LPAREN := by
  cases a with
  | nil => exact ⟨.COLON, none, tail, rfl, by decide, by decide⟩
  | cons kv xs =>
    refine ⟨.OPENA, none,
      ((.STRING, some kv.1) :: (.EQUALS, none) :: (.STRING, some kv.2)
        :: (annotToksList false xs ++ [(.CLOSEA, none)])) ++ (.COLON, none) :: tail,
      ?_, by decide, by decide⟩
    rw [annotToksBlock_cons, List.cons_append]

/-- The serialized text after absent children starts with a token other
than `(`. -/
theorem exists_head_LAC (l : Option (List Char)) (a : List (List Char × List Char))
    (tail : List Tok) :
    ∃ k v tl, labelToks l ++ (annotToksBlock a ++ ((.COLON, none) :: tail)) = (k, v) :: tl
      ∧ k ≠ .LPAREN := by
  cases l with
  | some s => exact ⟨.STRING, some s, _, rfl, by decide⟩
  | none =>
    obtain ⟨k, v, tl, heq, _, hkL⟩ := exists_head_AC a tail
    exact ⟨k, v, tl, heq, hkL⟩

/-- The `L A B` tail of rule `N` on the serialized label, annotation block
and branch length of a node. -/
theorem ruleLAB (l : Option (List Char)) (a : List (List Char × List Char)) (bl : ℚ)
    (f : ℕ) (toks : List Tok) (j : ℕ) (rest : List Tok)
    (h : toks.drop j = labelToks l ++ (annotToksBlock a
      ++ ((.COLON, none) :: (.STRING, some (formatFloat bl)) :: rest)))
    (hnd : (a.map Prod.fst).Nodup) (hdec : isDecimalQ bl = true)
    (hexp : usesExponent bl = false) (hf : a.length ≤ f) :
    ruleL ⟨toks, j⟩ = .ok (l, ⟨toks, j + (labelToks l).length⟩)
    ∧ ruleA f ⟨toks, j + (labelToks l).length⟩
        = .ok (a, ⟨toks, j + (labelToks l).length + (annotToksBlock a).length⟩)
    ∧ ruleB ⟨toks, j + (labelToks l).length + (annotToksBlock a).length⟩
        = .ok (bl, ⟨toks, j + (labelToks l).length + (annotToksBlock a).length + 1 + 1⟩) := by
  cases l with
  | some s =>
    have hl : toks.drop j = (.STRING, some s) :: (annotToksBlock a
        ++ ((.COLON, none) :: (.STRING, some (formatFloat bl)) :: rest)) := h
    have hL := ruleL_some toks j s _ hl
    have hd1 := drop_succ_of_drop toks j _ _ hl
    have hA := ruleA_toks a f toks (j + 1) ((.STRING, some (formatFloat bl)) :: rest) hd1 hnd hf
    have hd2 := drop_append_of_drop toks (j + 1) _ _ hd1
    have hB := ruleB_toks toks (j + 1 + (annotToksBlock a).length) bl rest hd2 hdec hexp
    exact ⟨hL, hA, hB⟩
  | none =>
    have hl : toks.drop j = annotToksBlock a
        ++ ((.COLON, none) :: (.STRING, some (formatFloat bl)) :: rest) := h
    obtain ⟨k, v, tl, heq, hkS, _⟩ :=
      exists_head_AC a ((.STRING, some (formatFloat bl)) :: rest)
    have hL := ruleL_none toks j k v tl (hl.trans heq) hkS
    have hA := ruleA_toks a f toks j ((.STRING, some (formatFloat bl)) :: rest) hl hnd hf
    have hd2 := drop_append_of_drop toks j _ _ hl
    have hB := ruleB_toks toks (j + (annotToksBlock a).length) bl rest hd2 hdec hexp
    exact ⟨hL, hA, hB⟩

/-- Fuel shape lemmas. -/
theorem pNeed_mk (l : Option (List Char)) (a : List (List Char × List Char))
    (bl : ℚ) (cs : List RawNode) : pNeed (.mk l a bl cs) = 2 + a.length + pNeedList cs := rfl

theorem pNeedList_nil : pNeedList [] = 1 := rfl

theorem pNeedList_cons (c : RawNode) (cs : List RawNode) :
    pNeedList (c :: cs) = 1 + pNeed c + pNeedList cs := rfl

/-- Unfolding lemma: the expected tokens of the first child. -/
theorem rawToksChildren_true_cons (c : RawNode) (rest : List RawNode) :
    rawToksChildren true (c :: rest)
      = rawToksBL c c.branchLength ++ rawToksChildren false rest := rfl

/-- Rules `N` and `Q` on the serialized tokens of safe raw nodes: each
consumes exactly the serialized block and rebuilds the original node(s). -/
theorem parse_rawToks : ∀ fuel : ℕ,
    (∀ raw : RawNode, rawSafe raw = true → ∀ (toks : List Tok) (i : ℕ) (rest : List Tok),
      toks.drop i = rawToks raw ++ rest → pNeed raw ≤ fuel →
      ruleN fuel ⟨toks, i⟩ = .ok (raw, ⟨toks, i + (rawToks raw).length⟩))
    ∧ (∀ cs : List RawNode, rawSafeList cs = true →
        ∀ (toks : List Tok) (i : ℕ) (k : TokKind) (v : Option (List Char)) (rest : List Tok),
        toks.drop i = rawToksChildren false cs ++ (k, v) :: rest → k ≠ .COMMA →
        pNeedList cs ≤ fuel →
        ruleQ fuel ⟨toks, i⟩ = .ok (cs, ⟨toks, i + (rawToksChildren false cs).length⟩)) := by
  intro fuel
  induction fuel using Nat.strong_induction_on with
  | _ fuel ih =>
    constructor
    · intro raw hsafe toks i rest h hfuel
      obtain ⟨l, a, bl, cs⟩ := raw
      simp only [rawSafe_mk, Bool.and_eq_true] at hsafe
      obtain ⟨⟨⟨⟨⟨hlab, hann⟩, hnd⟩, hdec⟩, hnoexp⟩, hcs⟩ := hsafe
      have hndP : (a.map Prod.fst).Nodup := of_decide_eq_true hnd
      have hexp : usesExponent bl = false := by simpa using hnoexp
      have hrt : rawToks (.mk l a bl cs) = rawToksBL (.mk l a bl cs) bl := rfl
      rw [hrt, rawToksBL_shape] at h
      simp only [List.append_assoc, List.singleton_append] at h
      rw [pNeed_mk] at hfuel
      cases fuel with
      | zero => omega
      | succ f =>
        rw [ruleN_succ]
        cases cs with
        | nil =>
          rw [pNeedList_nil] at hfuel
          have hS0 : (if ([] : List RawNode).isEmpty then ([] : List Tok)
              else (.LPAREN, none) :: (rawToksChildren true [] ++ [(.RPAREN, none)])) = [] := rfl
          rw [hS0, List.nil_append] at h
          obtain ⟨k2, v2, tl, heq, hkL⟩ :=
            exists_head_LAC l a ((.STRING, some (formatFloat bl)) :: rest)
          have hS := ruleS_nil f (by omega) toks i k2 v2 tl (h.trans heq) hkL
          rw [hS]
          simp only [exOk_bind]
          obtain ⟨hL, hA, hB⟩ := ruleLAB l a bl f toks i rest h hndP hdec hexp (by omega)
          rw [hL]
          simp only [exOk_bind]
          rw [hA]
          simp only [exOk_bind]
          rw [hB]
          simp only [exOk_bind]
          have he2 : i + (labelToks l).length + (annotToksBlock a).length + 1 + 1
              = i + (rawToks (RawNode.mk l a bl [])).length := by
            rw [hrt, rawToksBL_shape, hS0]
            simp only [List.nil_append, List.length_append, List.length_cons,
              List.length_nil, List.length_singleton]
            omega
          rw [he2]
        | cons c cs2 =>
          rw [pNeedList_cons] at hfuel
          have hS1 : (if (c :: cs2).isEmpty then ([] : List Tok)
              else (.LPAREN, none) :: (rawToksChildren true (c :: cs2) ++ [(.RPAREN, none)]))
              = (.LPAREN, none) :: (rawToksChildren true (c :: cs2) ++ [(.RPAREN, none)]) := rfl
          rw [hS1, rawToksChildren_true_cons] at h
          simp only [List.cons_append, List.append_assoc, List.singleton_append] at h
          simp only [rawSafeList_cons, Bool.and_eq_true] at hcs
          obtain ⟨hcsafe, hcs2⟩ := hcs
          cases f with
          | zero => omega
          | succ f2 =>
            rw [ruleS_succ]
            have haccL := acceptToken_hit toks i .LPAREN none _ false h
            have hd1 := drop_succ_of_drop toks i _ _ h
            have hN := (ih f2 (by omega)).1 c hcsafe toks (i + 1) _ hd1 (by omega)
            have hd2 := drop_append_of_drop toks (i + 1) (rawToks c) _ hd1
            have hQ := (ih f2 (by omega)).2 cs2 hcs2 toks (i + 1 + (rawToks c).length)
              .RPAREN none _ hd2 (by decide) (by omega)
            have hd3 := drop_append_of_drop toks (i + 1 + (rawToks c).length)
              (rawToksChildren false cs2) _ hd2
            have haccR := acceptToken_hit toks
              (i + 1 + (rawToks c).length + (rawToksChildren false cs2).length)
              .RPAREN none _ true hd3
            have hd4 := drop_succ_of_drop toks
              (i + 1 + (rawToks c).length + (rawToksChildren false cs2).length) _ _ hd3
            rw [haccL]
            simp only [exOk_bind]
            rw [if_pos True.intro, hN]
            simp only [exOk_bind]
            rw [hQ]
            simp only [exOk_bind]
            rw [haccR]
            simp only [exOk_bind]
            obtain ⟨hL, hA, hB⟩ := ruleLAB l a bl (f2 + 1) toks
              (i + 1 + (rawToks c).length + (rawToksChildren false cs2).length + 1)
              rest hd4 hndP hdec hexp (by omega)
            rw [hL]
            simp only [exOk_bind]
            rw [hA]
            simp only [exOk_bind]
            rw [hB]
            simp only [exOk_bind]
            have he2 : i + 1 + (rawToks c).length + (rawToksChildren false cs2).length + 1
                  + (labelToks l).length + (annotToksBlock a).length + 1 + 1
                = i + (rawToks (RawNode.mk l a bl (c :: cs2))).length := by
              rw [hrt, rawToksBL_shape, hS1, rawToksChildren_true_cons]
              simp only [List.cons_append, List.append_assoc, List.singleton_append,
                List.length_append, List.length_cons, List.length_nil, rawToks]
              omega
            rw [he2]
    · intro cs hsafe toks i k v rest h hk hfuel
      cases cs with
      | nil =>
        rw [pNeedList_nil] at hfuel
        cases fuel with
        | zero => omega
        | succ f =>
          have hnil : rawToksChildren false ([] : List RawNode) = [] := rfl
          rw [hnil, List.nil_append] at h
          have hm := acceptToken_miss toks i k .COMMA v rest h hk
          rw [ruleQ_succ, hm]
          simp only [exOk_bind]
          rw [if_neg (by simp)]
          rfl
      | cons c cs2 =>
        rw [pNeedList_cons] at hfuel
        simp only [rawSafeList_cons, Bool.and_eq_true] at hsafe
        obtain ⟨hcsafe, hcs2⟩ := hsafe
        cases fuel with
        | zero => omega
        | succ f =>
          rw [rawToksChildren_false_eq (c :: cs2) (by simp), rawToksChildren_true_cons] at h
          simp only [List.cons_append, List.append_assoc] at h
          have hacc := acceptToken_hit toks i .COMMA none _ false h
          have hd1 := drop_succ_of_drop toks i _ _ h
          have hN := (ih f (by omega)).1 c hcsafe toks (i + 1) _ hd1 (by omega)
          have hd2 := drop_append_of_drop toks (i + 1) (rawToks c) _ hd1
          have hQ := (ih f (by omega)).2 cs2 hcs2 toks (i + 1 + (rawToks c).length)
            k v rest hd2 hk (by omega)
          rw [ruleQ_succ, hacc]
          simp only [exOk_bind]
          rw [if_pos True.intro, hN]
          simp only [exOk_bind]
          rw [hQ]
          simp only [exOk_bind]
          have he2 : i + 1 + (rawToks c).length + (rawToksChildren false cs2).length
              = i + (rawToksChildren false (c :: cs2)).length := by
            rw [rawToksChildren_false_eq (c :: cs2) (by simp), rawToksChildren_true_cons]
            simp only [List.length_cons, List.length_append, rawToks]
            omega
          rw [he2]

/-- An annotation block has at least as many tokens as pairs. -/
theorem annot_len_le (a : List (List Char × List Char)) :
    a.length ≤ (annotToksBlock a).length := by
  cases a with
  | nil => simp [annotToksBlock]
  | cons kv xs =>
    rw [annotToksBlock_cons]
    simp only [List.length_cons, List.length_append]
    have hx : xs.length ≤ (annotToksList false xs).length := by
      induction xs with
      | nil => simp [annotToksList]
      | cons kv2 ys ihy =>
        rw [annotToksList_false_cons]
        simp only [List.length_cons]
        omega
    omega

/-- The parser fuel a serialized node needs is at most twice its token
count, hence well below the `2 * len + 8` budget `loadFromString` grants. -/
theorem pNeed_le_toks : ∀ (raw : RawNode) (blv : ℚ),
    pNeed raw ≤ 2 * (rawToksBL raw blv).length := by
  refine RawNode.rawIndOn (fun raw => ∀ blv, pNeed raw ≤ 2 * (rawToksBL raw blv).length) ?_
  intro l a bl cs ih blv
  rw [pNeed_mk, rawToksBL_shape]
  have hannot := annot_len_le a
  cases cs with
  | nil =>
    rw [pNeedList_nil]
    simp only [List.isEmpty_nil, if_true, List.nil_append, List.length_append,
      List.length_cons, List.length_nil]
    omega
  | cons c cs2 =>
    have hch : ∀ (cs3 : List RawNode), cs3 ≠ [] →
        (∀ x ∈ cs3, ∀ blv2, pNeed x ≤ 2 * (rawToksBL x blv2).length) →
        pNeedList cs3 ≤ 2 * (rawToksChildren true cs3).length + 2 := by
      intro cs3
      induction cs3 with
      | nil => intro hne _; exact absurd rfl hne
      | cons x ys ihy =>
        intro _ hall
        rw [pNeedList_cons, rawToksChildren_true_cons]
        have hx := hall x (List.mem_cons_self x ys) x.branchLength
        cases ys with
        | nil =>
          rw [pNeedList_nil]
          simp only [List.length_append]
          have hz : (rawToksChildren false ([] : List RawNode)).length = 0 := rfl
          omega
        | cons y zs =>
          have hys := ihy (by simp) (fun z hz => hall z (List.mem_cons_of_mem x hz))
          rw [rawToksChildren_false_eq (y :: zs) (by simp)]
          simp only [List.length_append, List.length_cons]
          omega
    have hcheck := hch (c :: cs2) (by simp) ih
    have hS1 : (if (c :: cs2).isEmpty then ([] : List Tok)
        else (.LPAREN, none) :: (rawToksChildren true (c :: cs2) ++ [(.RPAREN, none)]))
        = (.LPAREN, none) :: (rawToksChildren true (c :: cs2) ++ [(.RPAREN, none)]) := rfl
    rw [hS1]
    simp only [List.length_append, List.length_cons, List.length_nil]
    omega

/-- C1 (amended): `getNewick` emits no terminating semicolon and its raw
output is not re-parseable, but after appending the grammar's required
`';'` the serialized output of any parsed tree whose labels, annotation
keys and annotation values are nonempty bare strings (with distinct
annotation keys per node) and whose branch lengths Python renders
positionally (zero or magnitude in `[1e-4, 1e16)`; outside that range
`'{}'.format` emits exponent notation such as `1e+16`, whose `+` the
tokenizer rejects) re-parses to the identical tree — same shape, labels,
annotations, branch lengths, times and heights, exactly in rational
arithmetic.  Both conditions are `nodeSafe`. -/
theorem roundtrip_with_semicolon :
    ∀ (s : List Char) (t : Tree), loadFromString s = .ok t → nodeSafe t.root = true →
      loadFromString (getNewick t ++ [';']) = .ok t := by
  intro s t hload hsafe
  obtain ⟨raw, rfl⟩ := loadFromString_ok_shape s t hload
  have hroot : (finalize raw).root
      = setHeights (treeMaxTime (computeTimes 0 raw)) (computeTimes 0 raw) := rfl
  rw [hroot, nodeSafe_final] at hsafe
  rw [getNewick_finalize raw]
  have htok := tokenize_rawNewick raw hsafe
  unfold loadFromString
  rw [htok]
  simp only [exOk_bind]
  have hdrop0 : (rawToks raw ++ [((.SEMI, none) : Tok)]).drop 0
      = rawToks raw ++ [((.SEMI, none) : Tok)] := List.drop_zero _
  have hfuel : pNeed raw ≤ 2 * (rawToks raw ++ [((.SEMI, none) : Tok)]).length + 8 := by
    have hle := pNeed_le_toks raw raw.branchLength
    have h2 : rawToks raw = rawToksBL raw raw.branchLength := rfl
    rw [← h2] at hle
    simp only [List.length_append, List.length_cons, List.length_nil]
    omega
  have hN := (parse_rawToks (2 * (rawToks raw ++ [((.SEMI, none) : Tok)]).length + 8)).1 raw hsafe
    (rawToks raw ++ [((.SEMI, none) : Tok)]) 0 [((.SEMI, none) : Tok)] hdrop0 hfuel
  rw [hN]
  simp only [exOk_bind]
  have hd := drop_append_of_drop (rawToks raw ++ [((.SEMI, none) : Tok)]) 0
    (rawToks raw) [((.SEMI, none) : Tok)] hdrop0
  have hacc := acceptToken_hit (rawToks raw ++ [((.SEMI, none) : Tok)])
    (0 + (rawToks raw).length) .SEMI none [] true hd
  rw [hacc]
  simp only [exOk_bind]

/-- C1 witness: the round-trip theorem applied to the tree parsed from
`(X:0.5,Y:1.5)R:2;`. -/
theorem roundtrip_with_semicolon_witness :
    loadFromString (getNewick tree3 ++ [';']) = .ok tree3 :=
  roundtrip_with_semicolon "(X:0.5,Y:1.5)R:2;".data tree3
    (by with_unfolding_all rfl) (by with_unfolding_all rfl)

/-- Outside the positional range the program's round trip genuinely fails
even with a semicolon appended: `A:10000000000000000.0;` parses,
`getNewick` renders the branch length in exponent notation
(`'{}'.format(1e16)` is `1e+16`), and re-parsing dies in the tokenizer at
the `+`, which no rule matches — hence the positional-range condition in
`nodeSafe` and in the round-trip statement. -/
theorem exp_notation_breaks_roundtrip :
    loadFromString "A:10000000000000000.0;".data
      = .ok ⟨.mk (some ['A']) [] ((10 : ℚ) ^ 16) ((10 : ℚ) ^ 16) 0 [], (10 : ℚ) ^ 16⟩ ∧
    getNewick ⟨.mk (some ['A']) [] ((10 : ℚ) ^ 16) ((10 : ℚ) ^ 16) 0 [], (10 : ℚ) ^ 16⟩
      = "A:1e+16".data ∧
    nodeSafe (Node.mk (some ['A']) [] ((10 : ℚ) ^ 16) ((10 : ℚ) ^ 16) 0 []) = false ∧
    loadFromString ("A:1e+16".data ++ [';'])
      = .error (.parseError (unrecognizedMsg 4 '+')) := by
  refine ⟨?_, ?_, ?_, ?_⟩ <;> with_unfolding_all rfl

end TimeTree
